import Mathlib

/-!
Verification development for the VuiCode stack composition & test execution
engine (`tools/generate_content.py` and `tools/run_all_tests.py`).

The Python values manipulated by the config composer (YAML/JSON trees) are
modelled by the inductive type `Value`.  Python dicts are modelled as
insertion-ordered association lists; well-formed dicts (the only ones Python
can produce) have pairwise-distinct keys, captured by `wfValue`.
`copy.deepcopy` is the identity on these pure values.
-/

namespace VuiCode

inductive Value where
  | vnull : Value
  | vbool : Bool → Value
  | vint : Int → Value
  | vstr : String → Value
  | vlist : List Value → Value
  | vdict : List (String × Value) → Value
deriving Repr

/-- `d.get(k)` on an association-list dict: first binding wins (a Python dict
has unique keys, so this is the binding). -/
def dictFind (es : List (String × Value)) (k : String) : Option Value :=
  (es.find? (fun p => p.1 = k)).map (·.2)

/-- `out.get(k)` with Python `None` (`vnull`) standing in for a missing key —
`deep_merge` treats an absent key and a `None` value identically (neither is a
dict, so the other side wins wholesale). -/
def dictGetD (es : List (String × Value)) (k : String) : Value :=
  (dictFind es k).getD .vnull

/-- `out[k] = v` on an insertion-ordered dict: an existing binding is updated
in place, a new key is appended at the end. -/
def dictSet (es : List (String × Value)) (k : String) (v : Value) : List (String × Value) :=
  if es.any (fun p => p.1 = k) then
    es.map (fun p => if p.1 = k then (k, v) else p)
  else
    es ++ [(k, v)]

def Value.isDict : Value → Bool
  | .vdict _ => true
  | _ => false

mutual
/-- `deep_merge(a, b)` from `generate_content.py`:
```
def deep_merge(a, b):
    if isinstance(a, dict) and isinstance(b, dict):
        out = dict(a)
        for k, v in b.items():
            out[k] = deep_merge(out.get(k), v)
        return out
    return copy.deepcopy(b)
```
-/
def deep_merge : Value → Value → Value
  | .vdict aes, .vdict bes => .vdict (mergeEntries aes bes)
  | _, b => b
termination_by a b => sizeOf b

/-- The `for k, v in b.items(): out[k] = deep_merge(out.get(k), v)` loop,
with `out` threaded through. -/
def mergeEntries (out : List (String × Value)) : List (String × Value) → List (String × Value)
  | [] => out
  | (k, v) :: rest => mergeEntries (dictSet out k (deep_merge (dictGetD out k) v)) rest
termination_by l => sizeOf l
end

/-- Pairwise-distinct keys, as every Python dict guarantees. -/
def nodupKeys : List (String × Value) → Bool
  | [] => true
  | (k, _) :: rest => !(rest.any (fun p => p.1 = k)) && nodupKeys rest

mutual
/-- Well-formedness of a value as produced by Python: every dict (at any
depth below dict entries) has pairwise-distinct keys.  List elements are never
deep-merged pointwise (a list is replaced wholesale), so they need no
constraint. -/
def wfValue : Value → Bool
  | .vdict es => nodupKeys es && wfEntries es
  | _ => true

def wfEntries : List (String × Value) → Bool
  | [] => true
  | (_, v) :: rest => wfValue v && wfEntries rest
end

/-! ## merge_named_list -/

/-- Python truthiness of a value (`bool(x)`): `None`, `False`, `0`, `""`, `[]`
and `{}` are falsy, everything else truthy. -/
def pyTruthy : Value → Bool
  | .vnull => false
  | .vbool b => b
  | .vint n => n ≠ 0
  | .vstr s => s ≠ ""
  | .vlist xs => !xs.isEmpty
  | .vdict es => !es.isEmpty

/-- `x.get(key)` for a dict value (`vnull` on a missing key).  The claims
only exercise dict entries; on a non-dict element Python would raise
`AttributeError`, outside the verified scope. -/
def pyGet (x : Value) (key : String) : Value :=
  match x with
  | .vdict es => dictGetD es key
  | _ => .vnull

/-- The index map of `merge_named_list`:
`idx = {item.get("name"): i for i, item in enumerate(base_list)
        if isinstance(item, dict) and "name" in item}` — a later item with the
same name overwrites an earlier one, so the lookup returns the LAST index.
Only string-valued names can equal a (string) override key, so non-string
names are never matched. -/
def idxOf (baseList : List Value) (name : String) : Option Nat :=
  (baseList.enum.filterMap (fun p =>
    match p.2 with
    | .vdict es =>
        match dictFind es "name" with
        | some (.vstr s) => if s = name then some p.1 else none
        | _ => none
    | _ => none)).getLast?

/-- The override loop of `merge_named_list`: for each `(name, patch)`, if the
name is in the (pre-computed, never refreshed) index, deep-merge the patch into
the entry at that index, in place. -/
def applyNamedOverrides (baseList : List Value) (overrideMap : List (String × Value))
    (out : List Value) : List Value :=
  overrideMap.foldl (fun out p =>
    match idxOf baseList p.1 with
    | some i => out.set i (deep_merge (out.getD i .vnull) p.2)
    | none => out) out

/-- `merge_named_list(base_list, override_map, add_list)` from
`generate_content.py`:
```
def merge_named_list(base_list, override_map=None, add_list=None):
    base_list = base_list or []
    idx = {item.get("name"): i for i, item in enumerate(base_list)
           if isinstance(item, dict) and "name" in item}
    out = [copy.deepcopy(x) for x in base_list]
    for name, patch in (override_map or {}).items():
        if name in idx:
            i = idx[name]
            out[i] = deep_merge(out[i], patch)
    for item in (add_list or []):
        out.append(copy.deepcopy(item))
    return [x for x in out if not x.get("disabled")]
```
-/
def merge_named_list (baseList : List Value) (overrideMap : List (String × Value))
    (addList : List Value) : List Value :=
  let out := applyNamedOverrides baseList overrideMap baseList
  (out ++ addList).filter (fun x => !pyTruthy (pyGet x "disabled"))

/-! ## resolve_vars

`_VAR_RE = re.compile(r"\$\{([A-Z0-9_]+)\}")` and
```
def resolve_vars(obj, vars_map):
    if isinstance(obj, dict):
        return {k: resolve_vars(v, vars_map) for k, v in obj.items()}
    if isinstance(obj, list):
        return [resolve_vars(x, vars_map) for x in obj]
    if isinstance(obj, str):
        def repl(m):
            key = m.group(1)
            return str(vars_map.get(key, os.environ.get(key, m.group(0))))
        return _VAR_RE.sub(repl, obj)
    return obj
```
The substitution is modelled character-by-character, exactly following
`re.sub`'s left-to-right, non-overlapping scan.  Since the name class
`[A-Z0-9_]` excludes `}`, the greedy match never backtracks, so "maximal run
of name characters followed by `}`" is exactly the regex's behaviour.
`vars_map` and the environment are modelled as string-valued maps
(`str(...)` is then the identity). -/

def isVarChar (c : Char) : Bool :=
  ('A' ≤ c && c ≤ 'Z') || ('0' ≤ c && c ≤ '9') || c = '_'

/-- One `re.sub` scan: at each position try to match `\$\{[A-Z0-9_]+\}`; on a
match emit the replacement (the looked-up value, or the token verbatim when
the lookup misses) and continue after the match; otherwise copy one character
and move on. -/
def substChars (lookup : String → Option String) : List Char → List Char
  | [] => []
  | '$' :: '{' :: rest =>
      match htake : rest.takeWhile isVarChar, hdrop : rest.dropWhile isVarChar with
      | nm :: nms, '}' :: tail =>
          (match lookup (String.mk (nm :: nms)) with
           | some v => v.data
           | none => '$' :: '{' :: ((nm :: nms) ++ ['}'])) ++ substChars lookup tail
      | _, _ => '$' :: substChars lookup ('{' :: rest)
  | c :: cs => c :: substChars lookup cs
termination_by l => l.length
decreasing_by
  · have hall : ∀ l : List Char, (l.dropWhile isVarChar).length ≤ l.length := by
      intro l
      induction l with
      | nil => simp [List.dropWhile]
      | cons a l ih =>
          simp only [List.dropWhile]
          cases isVarChar a <;> simp <;> omega
    have h := hall rest
    rw [hdrop] at h
    simp only [List.length_cons] at h ⊢
    omega
  · simp only [List.length_cons]
    omega
  · simp only [List.length_cons]
    omega

/-- Does the string contain a `${NAME}` token (a match of `_VAR_RE`)?
Mirrors the scan of `substChars`. -/
def hasTokChars : List Char → Bool
  | [] => false
  | '$' :: '{' :: rest =>
      match rest.takeWhile isVarChar, rest.dropWhile isVarChar with
      | _ :: _, '}' :: _ => true
      | _, _ => hasTokChars ('{' :: rest)
  | _ :: cs => hasTokChars cs
termination_by l => l.length

/-- Lookup used by `repl`: `vars_map.get(key, os.environ.get(key, token))`,
minus the final verbatim-token fallback (handled inside `substChars`). -/
def lookupVar (varsMap envMap : List (String × String)) (key : String) : Option String :=
  match varsMap.find? (fun p => p.1 = key) with
  | some p => some p.2
  | none =>
      match envMap.find? (fun p => p.1 = key) with
      | some p => some p.2
      | none => none

/-- `_VAR_RE.sub(repl, s)`. -/
def substStr (varsMap envMap : List (String × String)) (s : String) : String :=
  String.mk (substChars (lookupVar varsMap envMap) s.data)

mutual
/-- `resolve_vars(obj, vars_map)` (the environment is passed alongside since
`repl` closes over `os.environ`). -/
def resolve_vars (varsMap envMap : List (String × String)) : Value → Value
  | .vdict es => .vdict (resolveEntries varsMap envMap es)
  | .vlist xs => .vlist (resolveList varsMap envMap xs)
  | .vstr s => .vstr (substStr varsMap envMap s)
  | v => v

def resolveEntries (varsMap envMap : List (String × String)) :
    List (String × Value) → List (String × Value)
  | [] => []
  | (k, v) :: rest => (k, resolve_vars varsMap envMap v) :: resolveEntries varsMap envMap rest

def resolveList (varsMap envMap : List (String × String)) : List Value → List Value
  | [] => []
  | x :: rest => resolve_vars varsMap envMap x :: resolveList varsMap envMap rest
end

mutual
/-- Does any string anywhere in the value contain a `${NAME}` token? -/
def valueHasTok : Value → Bool
  | .vdict es => entriesHasTok es
  | .vlist xs => listHasTok xs
  | .vstr s => hasTokChars s.data
  | _ => false

def entriesHasTok : List (String × Value) → Bool
  | [] => false
  | (_, v) :: rest => valueHasTok v || entriesHasTok rest

def listHasTok : List Value → Bool
  | [] => false
  | x :: rest => valueHasTok x || listHasTok rest
end

/-! ## Path normalization and sandboxing (`_expand_project_paths`) -/

/-- `s.startswith(pre)`. -/
def strStartsWith (s pre : String) : Bool := pre.data.isPrefixOf s.data

/-- `s.endswith(suf)`. -/
def strEndsWith (s suf : String) : Bool := suf.data.isSuffixOf s.data

/-- `s.replace("\\", "/")` (single-character replacement). -/
def replaceBackslashChars (cs : List Char) : List Char :=
  cs.map (fun c => if c = '\\' then '/' else c)

/-- `while s.startswith("./"): s = s[2:]`. -/
def stripDotSlashChars : List Char → List Char
  | '.' :: '/' :: rest => stripDotSlashChars rest
  | cs => cs

/-- The cwd normalization prelude of `expand_cwd`:
`cwd = (cwd or "").replace("\\", "/")` followed by stripping leading `./`. -/
def normCwd (cwd : String) : String :=
  String.mk (stripDotSlashChars (replaceBackslashChars cwd.data))

/-- `is_safe_relpath(rel)` from `generate_content.py` (with the default
`allowed_roots=("backend/", "frontend/")`):
```
def is_safe_relpath(rel, allowed_roots=("backend/", "frontend/")):
    if rel.startswith("../") or rel.startswith("/") or rel.startswith("content/"):
        return False
    return any(rel.startswith(ar) for ar in allowed_roots)
```
-/
def is_safe_relpath (rel : String) : Bool :=
  if strStartsWith rel "../" || strStartsWith rel "/" || strStartsWith rel "content/" then
    false
  else
    strStartsWith rel "backend/" || strStartsWith rel "frontend/"

/-- The inner `expand_cwd` of `_expand_project_paths`; a raised `ValueError`
is modelled as `Except.error`.  (`normCwd cwd` is the local `cwd` after the
backslash/`./` normalization prelude; the `cwd + ("/" if not
cwd.endswith("/") else "")` probe is inlined.) -/
def expand_cwd (slug : String) (cwd : String) : Except String String :=
  if normCwd cwd = "backend" || strStartsWith (normCwd cwd) "backend/" then
    .ok ("content/code/" ++ slug ++ "/" ++ normCwd cwd)
  else if normCwd cwd = "frontend" || strStartsWith (normCwd cwd) "frontend/" then
    .ok ("content/code/" ++ slug ++ "/" ++ normCwd cwd)
  else if is_safe_relpath
      (if strEndsWith (normCwd cwd) "/" then normCwd cwd else normCwd cwd ++ "/") then
    .ok ("content/code/" ++ slug ++ "/" ++ normCwd cwd)
  else
    .error ("Illegal test/service cwd: " ++ normCwd cwd)

/-- A service entry as consumed by `_expand_project_paths`: only the `cwd`
key is read or written; all other keys are carried through untouched and are
omitted from the model. -/
structure PSvc where
  cwd : Option String
deriving Repr, DecidableEq

/-- A test entry as consumed by `_expand_project_paths`.  The command vectors
are typed as string lists (`validate_template` enforces `list[str]`), so the
`str(...)` coercions applied by the code are the identity here. -/
structure PTest where
  cwd : Option String
  ttype : Option String
  junit_xml : Option String
  install : Option (List (List String))
  cmd : Option (List String)
deriving Repr, DecidableEq

structure PCfg where
  services : List PSvc
  tests : List PTest
deriving Repr, DecidableEq

/-- The `junit_xml` rewrite:
```
if t.get("type") == "junit" and t.get("junit_xml"):
    j = t["junit_xml"].replace("\\", "/")
    if not str(j).startswith("content/"):
        t["junit_xml"] = f"content/code/{slug}/{j}"
```
Note the backslash-replaced `j` is only persisted when the prefix is added;
otherwise the original value is kept. -/
def expandJunit (slug : String) (t : PTest) : Option String :=
  if t.ttype = some "junit" then
    match t.junit_xml with
    | some j0 =>
        if j0 ≠ "" then
          let j := String.mk (replaceBackslashChars j0.data)
          if strStartsWith j "content/" then t.junit_xml
          else some ("content/code/" ++ slug ++ "/" ++ j)
        else t.junit_xml
    | none => t.junit_xml
  else t.junit_xml

def expandTestPaths (slug : String) (t : PTest) : Except String PTest :=
  match t.cwd with
  | some c =>
      match expand_cwd slug c with
      | .ok c' => .ok { t with cwd := some c', junit_xml := expandJunit slug t }
      | .error e => .error e
  | none => .ok { t with junit_xml := expandJunit slug t }

def expandSvcList (slug : String) : List PSvc → Except String (List PSvc)
  | [] => .ok []
  | s :: rest =>
      match s.cwd with
      | some c =>
          match expand_cwd slug c with
          | .ok c' =>
              match expandSvcList slug rest with
              | .ok ss => .ok (⟨some c'⟩ :: ss)
              | .error e => .error e
          | .error e => .error e
      | none =>
          match expandSvcList slug rest with
          | .ok ss => .ok (s :: ss)
          | .error e => .error e

def expandTestList (slug : String) : List PTest → Except String (List PTest)
  | [] => .ok []
  | t :: rest =>
      match expandTestPaths slug t with
      | .ok t' =>
          match expandTestList slug rest with
          | .ok ts => .ok (t' :: ts)
          | .error e => .error e
      | .error e => .error e

/-- `_expand_project_paths(merged, slug)`: normalize every service/test `cwd`
(raising on an illegal one, modelled as `.error`), rewrite `junit_xml`
targets, and coerce command vectors (the identity on the string-typed
model). -/
def expand_project_paths (slug : String) (cfg : PCfg) : Except String PCfg :=
  match expandSvcList slug cfg.services with
  | .error e => .error e
  | .ok ss =>
      match expandTestList slug cfg.tests with
      | .error e => .error e
      | .ok ts => .ok { services := ss, tests := ts }

/-- A normalized cwd that the sandboxing accepts: rooted at `backend` or
`frontend`.  `expand_cwd` accepts exactly these: the fallback
`is_safe_relpath` probe can only succeed on a `backend/`- or
`frontend/`-rooted path, which the two earlier branches already captured. -/
def rootedOk (c : String) : Bool :=
  c = "backend" || strStartsWith c "backend/" ||
  c = "frontend" || strStartsWith c "frontend/"

/-- Does any service or test of the config carry a `cwd` key? -/
def cfgHasCwd (cfg : PCfg) : Bool :=
  cfg.services.any (fun s => s.cwd.isSome) || cfg.tests.any (fun t => t.cwd.isSome)

/-! ## Template registry resolution (`best_match_by_topic`,
`load_or_autogen_template`) -/

/-- The registry only feeds the `detect` keyword list into topic scoring;
`detect` entries are typed as strings (non-strings are filtered out by the
code's `isinstance(k, str)` guard). -/
structure StackTemplate where
  detect : List String
deriving Repr, DecidableEq

def pyLower (s : String) : String := String.mk (s.data.map Char.toLower)

/-- Python's substring test `k in t`. -/
def isSubstrChars (k : List Char) : List Char → Bool
  | [] => k.isEmpty
  | c :: rest => k.isPrefixOf (c :: rest) || isSubstrChars k rest

/-- One template's topic score:
`kws = [k.lower() for k in tpl.get("detect", []) if isinstance(k, str)]`,
`sc = sum(1 for k in kws if k in t) if kws else 0`. -/
def tplScore (tpl : StackTemplate) (t : String) : Nat :=
  let kws := tpl.detect.map pyLower
  if kws.isEmpty then 0 else kws.countP (fun k => isSubstrChars k.data t.data)

/-- `best_match_by_topic(reg, topic)`: fold over the registry in first-seen
order, keeping the first template whose score strictly exceeds the running
best (initially 0), so ties go to the earlier entry and an all-zero scoring
returns `None`. -/
def best_match_by_topic (reg : List (String × StackTemplate)) (topic : String) :
    Option String :=
  (reg.foldl
    (fun acc p =>
      let sc := tplScore p.2 (pyLower topic)
      if sc > acc.2 then (some p.1, sc) else acc)
    ((none : Option String), 0)).1

inductive TplChoice where
  | existing (name : String)
  | autogen
deriving Repr, DecidableEq

def regHasKey (reg : List (String × StackTemplate)) (n : String) : Bool :=
  reg.any (fun p => p.1 = n)

/-- The resolution step of `load_or_autogen_template`:
```
chosen = name or best_match_by_topic(reg, topic)
if chosen and chosen in reg:
    ... use reg[chosen] ...
else:
    ... autogenerate ...
```
An absent CLI flag is `None`; an empty string is falsy, so `name or ...`
falls through to keyword matching in both cases. -/
def resolve_template (reg : List (String × StackTemplate)) (topic : String)
    (name : Option String) : TplChoice :=
  let chosen : Option String :=
    match name with
    | some n => if n = "" then best_match_by_topic reg topic else some n
    | none => best_match_by_topic reg topic
  match chosen with
  | some c => if c ≠ "" && regHasKey reg c then .existing c else .autogen
  | none => .autogen

/-! ## Orchestrator (`run_all_tests.py`)

The orchestrator drives OS processes, so its run is modelled as a
deterministic interpreter over the plan plus an oracle describing the
external world: whether each `subprocess.Popen` raises, what the wall clock
reads at each healthcheck poll, whether each poll succeeds (response received
and `expect` substring present), and the exit code of each install command
and test attempt.  The interpreter emits an event trace recording process
starts/stops, install command executions and test attempts. -/

inductive Ev where
  | svcStart (name : String)
  | svcStop (name : String)
  | installCmd (test : String) (i : Nat)
  | testAttempt (test : String) (attempt : Nat)
deriving Repr, DecidableEq

/-- One declared service: `name`, healthcheck `url` (`hc.get("url")`) and
`int(hc.get("timeout_sec", 20))` (the default 20 is applied at parse time).
The start command vector does not influence the modelled control flow and is
omitted; its launch outcome lives in the oracle. -/
structure ServiceCfg where
  name : String
  hcUrl : Option String
  hcTimeout : Int
deriving Repr

/-- World behaviour for one service. -/
structure SvcOracle where
  /-- `subprocess.Popen` raises (e.g. `FileNotFoundError` for a missing
  binary). -/
  spawnExc : Bool
  /-- `time.time()` on entry to `wait_http`. -/
  startT : Int
  /-- `time.time()` at the k-th `while` guard evaluation; real time never
  runs backwards, which theorems assume as `startT ≤ gclock k`. -/
  gclock : Nat → Int
  /-- Did the k-th `urllib` request return a response containing the
  expected substring? -/
  poll : Nat → Bool
  /-- Horizon on guard evaluations (the real loop always terminates because
  wall time grows past any finite timeout). -/
  fuel : Nat
  /-- `round(time.time() - t0, 2)` recorded in the service metadata. -/
  duration : Int

/-- One declared test: `name`, `type`, the declared install command list and
`int(tcfg.get("retries", 0) or 0)`. -/
structure TestCfg where
  name : String
  ttype : String
  install : List (List String)
  retries : Int
deriving Repr

/-- World behaviour for one test: exit code of install command `i`, and exit
code of attempt `a` (1-based; timeouts appear as the sentinel 124, a missing
binary as 127, other launch exceptions as 1 — already folded into the
oracle's value). -/
structure TestOracle where
  installRc : Nat → Int
  attemptRc : Nat → Int

/-- `wait_http`'s polling loop:
```
start = time.time()
tries = 0
while time.time() - start < timeout_sec:
    tries += 1
    try: ... urlopen ... if ok: return True
    except ...: log
    time.sleep(0.4)
return False
```
Arguments: fuel, tries-so-far.  Returns (healthy, number of HTTP requests
issued). -/
def waitHttpGo (timeout startT : Int) (gclock : Nat → Int) (poll : Nat → Bool) :
    Nat → Nat → Bool × Nat
  | 0, tries => (false, tries)
  | fuel + 1, tries =>
      if gclock tries - startT < timeout then
        if poll tries then (true, tries + 1)
        else waitHttpGo timeout startT gclock poll fuel (tries + 1)
      else (false, tries)

def wait_http (timeout startT : Int) (gclock : Nat → Int) (poll : Nat → Bool)
    (fuel : Nat) : Bool × Nat :=
  waitHttpGo timeout startT gclock poll fuel 0

/-- `--max-service-wait` application:
`if max_wait_override and max_wait_override > 0: timeout_sec =
max(timeout_sec, max_wait_override)` — the override only takes effect when
strictly positive (0 is falsy, negatives fail the `> 0` test). -/
def effTimeout (maxWait t : Int) : Int :=
  if maxWait > 0 then max t maxWait else t

/-- Health determination for one started service: poll the declared URL when
one is declared (and non-empty — `if url:` is a truthiness test), else sleep
a grace second and assume healthy. -/
def svcHealthy (maxWait : Int) (s : ServiceCfg) (o : SvcOracle) : Bool :=
  match s.hcUrl with
  | some u =>
      if u ≠ "" then
        (wait_http (effTimeout maxWait s.hcTimeout) o.startT o.gclock o.poll o.fuel).1
      else true
  | none => true

structure SvcMeta where
  name : String
  healthy : Bool
  duration : Int
deriving Repr, DecidableEq

/-- How `start_services` relinquishes control:
`allHealthy`/`someUnhealthy` are its two `return` statements;
`exc` models an exception (a raising `Popen`) escaping the function, in
which case the started processes are neither returned nor stopped. -/
inductive StartResult where
  | allHealthy (meta : List SvcMeta) (procs : List String)
  | someUnhealthy (meta : List SvcMeta) (procs : List String)
  | exc (started : List String)
deriving Repr, DecidableEq

/-- `stop_services(procs)`: terminate every process in reverse start order,
wait, then force-kill stragglers (also in reverse order).  The terminate+kill
pair for one process is collapsed into a single `svcStop` event. -/
def stopEvents (procs : List String) : List Ev := procs.reverse.map Ev.svcStop

def startServicesGo (maxWait : Int) :
    List (ServiceCfg × SvcOracle) → List SvcMeta → List String → List Ev →
    List Ev × StartResult
  | [], meta, procs, evs => (evs, .allHealthy meta procs)
  | (s, o) :: rest, meta, procs, evs =>
      if o.spawnExc then
        (evs, .exc procs)
      else
        let procs' := procs ++ [s.name]
        let evs' := evs ++ [Ev.svcStart s.name]
        let healthy := svcHealthy maxWait s o
        let meta' := meta ++ [⟨s.name, healthy, o.duration⟩]
        if healthy then
          startServicesGo maxWait rest meta' procs' evs'
        else
          (evs' ++ stopEvents procs', .someUnhealthy meta' procs')

/-- `start_services(cfg, ...)`: start each declared service in order,
healthcheck it, and on the first unhealthy one stop everything started so far
and return `ok=False`. -/
def start_services (maxWait : Int) (svcs : List (ServiceCfg × SvcOracle)) :
    List Ev × StartResult :=
  startServicesGo maxWait svcs [] [] []

structure TestResult where
  name : String
  ttype : String
  returncode : Int
  err : Option String
  finalAttempt : Nat
deriving Repr, DecidableEq

/-- The install phase of `run_one_test`: run install commands in order; a
non-zero exit aborts the phase, returning that exit code.  Arguments: number
of commands left, index of the next command. -/
def runInstallGo (tname : String) (rc : Nat → Int) : Nat → Nat → List Ev × Option Int
  | 0, _ => ([], none)
  | n + 1, i =>
      if rc i ≠ 0 then ([Ev.installCmd tname i], some (rc i))
      else
        let (evs, res) := runInstallGo tname rc n (i + 1)
        (Ev.installCmd tname i :: evs, res)

/-- The retry loop of `run_one_test`:
```
attempt = 0
while True:
    attempt += 1
    ... run cmd -> rc ...
    last_result = result
    if rc == 0: return result
    if attempt > retries: return result
    time.sleep(0.6)
```
Arguments: retries remaining (`retries - (attempt - 1)` clamped at 0), the
current attempt number.  Returns (events, final attempt number); when the
budget is exhausted the attempt's result is returned whether or not it
succeeded, so the two exits coincide. -/
def runAttemptsGo (tname : String) (rc : Nat → Int) : Nat → Nat → List Ev × Nat
  | 0, attempt => ([Ev.testAttempt tname attempt], attempt)
  | r + 1, attempt =>
      if rc attempt = 0 then ([Ev.testAttempt tname attempt], attempt)
      else
        let (evs, fin) := runAttemptsGo tname rc r (attempt + 1)
        (Ev.testAttempt tname attempt :: evs, fin)

/-- `run_one_test(tcfg, ...)`: install once (aborting on failure with an
`install-failed` result), then run the command with retries; the reported
result carries the final attempt's exit code.  The JUnit/Playwright/raw
adapters only shape the informational `summary`, never the exit code, and are
not modelled. -/
def run_one_test (t : TestCfg) (o : TestOracle) : List Ev × TestResult :=
  let (ievs, ifail) := runInstallGo t.name o.installRc t.install.length 0
  match ifail with
  | some rc => (ievs, ⟨t.name, t.ttype, rc, some "install-failed", 0⟩)
  | none =>
      let (aevs, fin) := runAttemptsGo t.name o.attemptRc t.retries.toNat 1
      (ievs ++ aevs, ⟨t.name, t.ttype, o.attemptRc fin, none, fin⟩)

/-- The sequential test loop of `main`. -/
def runTestsGo : List (TestCfg × TestOracle) → List Ev × List TestResult
  | [] => ([], [])
  | (t, o) :: rest =>
      let (evs, res) := run_one_test t o
      let (evs', ress) := runTestsGo rest
      (evs ++ evs', res :: ress)

structure Report where
  overall_passed : Bool
  services : List SvcMeta
  results : List TestResult
deriving Repr, DecidableEq

/-- Outcome of one orchestrator invocation.  `report`/`exitCode` are `none`
when an uncaught exception aborts the process before the report is built
(Python then exits on the traceback).  `leaked` lists started service
processes that were never handed to `stop_services`. -/
structure RunOutcome where
  events : List Ev
  report : Option Report
  exitCode : Option Nat
  leaked : List String
deriving Repr, DecidableEq

/-- `main()` of `run_all_tests.py`:
```
services_meta, procs, ok_services = start_services(...)   # outside the try
results = []
overall_passed = False
try:
    if ok_services:
        for tcfg in tests: results.append(run_one_test(...))
        overall_passed = all(rc == 0)
    else:
        overall_passed = False
finally:
    stop_services(procs)
... write report ...
sys.exit(0 if overall_passed else 1)
```
An exception escaping `start_services` leaves `procs` unbound: the
`try/finally` below the call never executes, so the already started
processes are leaked. -/
def orchestrator_main (maxWait : Int) (svcs : List (ServiceCfg × SvcOracle))
    (tests : List (TestCfg × TestOracle)) : RunOutcome :=
  match start_services maxWait svcs with
  | (evs, .exc started) =>
      { events := evs, report := none, exitCode := none, leaked := started }
  | (evs, .someUnhealthy meta procs) =>
      { events := evs ++ stopEvents procs,
        report := some ⟨false, meta, []⟩,
        exitCode := some 1,
        leaked := [] }
  | (evs, .allHealthy meta procs) =>
      let (tevs, results) := runTestsGo tests
      let overall := results.all (fun r => r.returncode == 0)
      { events := evs ++ tevs ++ stopEvents procs,
        report := some ⟨overall, meta, results⟩,
        exitCode := some (if overall then 0 else 1),
        leaked := [] }

/-- Metadata entry recorded for a healthy service. -/
def mkMeta (p : ServiceCfg × SvcOracle) : SvcMeta := ⟨p.1.name, true, p.2.duration⟩

/-- The test a trace event belongs to (`none` for service events). -/
def evTestName : Ev → Option String
  | .installCmd n _ => some n
  | .testAttempt n _ => some n
  | _ => none

/-! ## Theorems -/

theorem dropWhile_length_le {α : Type} (p : α → Bool) :
    ∀ l : List α, (l.dropWhile p).length ≤ l.length := by
  intro l
  induction l with
  | nil => simp [List.dropWhile]
  | cons a l ih =>
      simp only [List.dropWhile]
      cases p a <;> simp <;> omega

/-! ## Orchestrator lemmas -/

theorem wait_http_nonpos (timeout startT : Int) (gclock : Nat → Int) (poll : Nat → Bool)
    (fuel : Nat) (ht : timeout ≤ 0) (hc : startT ≤ gclock 0) :
    wait_http timeout startT gclock poll fuel = (false, 0) := by
  cases fuel with
  | zero => rfl
  | succ n =>
      have hlt : ¬ (gclock 0 - startT < timeout) := by omega
      simp [wait_http, waitHttpGo, hlt]

theorem startServicesGo_healthy_front (maxWait : Int) (pre : List (ServiceCfg × SvcOracle))
    (hpre : ∀ p ∈ pre, p.2.spawnExc = false ∧ svcHealthy maxWait p.1 p.2 = true) :
    ∀ rest meta procs evs,
      startServicesGo maxWait (pre ++ rest) meta procs evs =
      startServicesGo maxWait rest (meta ++ pre.map mkMeta)
        (procs ++ pre.map (fun p => p.1.name))
        (evs ++ pre.map (fun p => Ev.svcStart p.1.name)) := by
  induction pre with
  | nil => intro rest meta procs evs; simp
  | cons p pre ih =>
      intro rest meta procs evs
      obtain ⟨s, o⟩ := p
      have h1 : o.spawnExc = false := (hpre (s, o) (by simp)).1
      have h2 : svcHealthy maxWait s o = true := (hpre (s, o) (by simp)).2
      have hpre' : ∀ q ∈ pre, q.2.spawnExc = false ∧ svcHealthy maxWait q.1 q.2 = true :=
        fun q hq => hpre q (by simp [hq])
      rw [List.cons_append]
      show (if o.spawnExc = true then (evs, StartResult.exc procs)
            else
              if svcHealthy maxWait s o then
                startServicesGo maxWait (pre ++ rest)
                  (meta ++ [⟨s.name, svcHealthy maxWait s o, o.duration⟩])
                  (procs ++ [s.name]) (evs ++ [Ev.svcStart s.name])
              else
                ((evs ++ [Ev.svcStart s.name]) ++ stopEvents (procs ++ [s.name]),
                 .someUnhealthy (meta ++ [⟨s.name, svcHealthy maxWait s o, o.duration⟩])
                   (procs ++ [s.name]))) = _
      rw [h1, h2]
      simp only [Bool.false_eq_true, if_false, if_true]
      rw [ih hpre' rest]
      simp [mkMeta, List.append_assoc]

theorem start_services_unhealthy_at (maxWait : Int)
    (pre : List (ServiceCfg × SvcOracle)) (s : ServiceCfg) (o : SvcOracle)
    (post : List (ServiceCfg × SvcOracle))
    (hpre : ∀ p ∈ pre, p.2.spawnExc = false ∧ svcHealthy maxWait p.1 p.2 = true)
    (hs : o.spawnExc = false) (hbad : svcHealthy maxWait s o = false) :
    start_services maxWait (pre ++ (s, o) :: post) =
      ((pre.map (fun p => Ev.svcStart p.1.name) ++ [Ev.svcStart s.name]) ++
         stopEvents (pre.map (fun p => p.1.name) ++ [s.name]),
       .someUnhealthy (pre.map mkMeta ++ [⟨s.name, false, o.duration⟩])
         (pre.map (fun p => p.1.name) ++ [s.name])) := by
  unfold start_services
  rw [startServicesGo_healthy_front maxWait pre hpre]
  simp [startServicesGo, hs, hbad]

theorem start_services_all_healthy (maxWait : Int) (svcs : List (ServiceCfg × SvcOracle))
    (h : ∀ p ∈ svcs, p.2.spawnExc = false ∧ svcHealthy maxWait p.1 p.2 = true) :
    start_services maxWait svcs =
      (svcs.map (fun p => Ev.svcStart p.1.name),
       .allHealthy (svcs.map mkMeta) (svcs.map (fun p => p.1.name))) := by
  unfold start_services
  have := startServicesGo_healthy_front maxWait svcs h [] [] [] []
  simpa [startServicesGo] using this

theorem list_all_map {α β : Type} (f : α → β) (p : β → Bool) :
    ∀ l : List α, (l.map f).all p = l.all (fun a => p (f a)) := by
  intro l
  induction l with
  | nil => rfl
  | cons a l ih => simp [List.all_cons, ih]

theorem runTestsGo_results (tests : List (TestCfg × TestOracle)) :
    (runTestsGo tests).2 = tests.map (fun q => (run_one_test q.1 q.2).2) := by
  induction tests with
  | nil => rfl
  | cons q rest ih =>
      obtain ⟨t, o⟩ := q
      simp only [runTestsGo, List.map_cons]
      rw [← ih]

theorem exists_first_bad {α : Type} (P : α → Bool) (l : List α)
    (h : ¬ (∀ x ∈ l, P x = true)) :
    ∃ pre x post, l = pre ++ x :: post ∧ (∀ y ∈ pre, P y = true) ∧ P x = false := by
  induction l with
  | nil => exact absurd (by intro x hx; cases hx) h
  | cons a l ih =>
      by_cases ha : P a = true
      · have hl : ¬ (∀ x ∈ l, P x = true) := by
          intro hall
          exact h (by
            intro x hx
            rcases List.mem_cons.mp hx with rfl | hx'
            · exact ha
            · exact hall x hx')
        obtain ⟨pre, x, post, rfl, hpre, hx⟩ := ih hl
        exact ⟨a :: pre, x, post, rfl, by
          intro y hy
          rcases List.mem_cons.mp hy with rfl | hy'
          · exact ha
          · exact hpre y hy', hx⟩
      · exact ⟨[], a, l, rfl, (by intro y hy; cases hy), by simpa using ha⟩

/-! ## Claim theorems: orchestrator -/

/-- C2 (code bug): the claim says teardown is guaranteed on every exit path,
including an exception raised during the startup of a later service.  The
code violates this: `services_meta, procs, ok_services = start_services(...)`
sits OUTSIDE `main`'s `try/finally`, and `start_services` itself has no
handler around `subprocess.Popen`, so when launching the second service
raises (here: a missing binary, `FileNotFoundError`), the already started and
healthy first service is never passed to `stop_services` — the run aborts on
the traceback with `svc-a` still running (`leaked`), no report and no exit
code.  This theorem evaluates the model at that failing input. -/
theorem c2_startup_exception_leaks_started_service :
    orchestrator_main 0
      [(⟨"svc-a", none, 20⟩, ⟨false, 0, fun _ => 0, fun _ => false, 0, 0⟩),
       (⟨"svc-b", none, 20⟩, ⟨true, 0, fun _ => 0, fun _ => false, 0, 0⟩)] [] =
      { events := [Ev.svcStart "svc-a"], report := none, exitCode := none,
        leaked := ["svc-a"] } := by
  rfl

/-- C3: the report's `overall_passed` is true iff every declared service
became healthy and every test's final recorded returncode is zero, and the
process exit code is 0 iff `overall_passed`, else 1 (stated for runs where no
process launch raises, so that the report is produced at all). -/
theorem c3_overall_passed_iff_and_exit_code (maxWait : Int)
    (svcs : List (ServiceCfg × SvcOracle)) (tests : List (TestCfg × TestOracle))
    (hspawn : ∀ p ∈ svcs, p.2.spawnExc = false) :
    ∃ rep, (orchestrator_main maxWait svcs tests).report = some rep ∧
      rep.overall_passed =
        (svcs.all (fun p => svcHealthy maxWait p.1 p.2) &&
         tests.all (fun q => (run_one_test q.1 q.2).2.returncode == 0)) ∧
      (orchestrator_main maxWait svcs tests).exitCode =
        some (if rep.overall_passed then 0 else 1) := by
  by_cases hall : ∀ p ∈ svcs, svcHealthy maxWait p.1 p.2 = true
  · have hst := start_services_all_healthy maxWait svcs (fun p hp => ⟨hspawn p hp, hall p hp⟩)
    unfold orchestrator_main
    rw [hst]
    refine ⟨_, rfl, ?_, rfl⟩
    have hA : svcs.all (fun p => svcHealthy maxWait p.1 p.2) = true := by
      rw [List.all_eq_true]; intro p hp; exact hall p hp
    simp only [runTestsGo_results, list_all_map, hA, Bool.true_and]
  · obtain ⟨pre, x, post, hdecomp, hpreh, hxbad⟩ :=
      exists_first_bad (fun p => svcHealthy maxWait p.1 p.2) svcs hall
    obtain ⟨s, o⟩ := x
    subst hdecomp
    have hst := start_services_unhealthy_at maxWait pre s o post
      (fun p hp => ⟨hspawn p (by simp [hp]), hpreh p hp⟩)
      (hspawn (s, o) (by simp)) hxbad
    unfold orchestrator_main
    rw [hst]
    refine ⟨_, rfl, ?_, rfl⟩
    have hA : (pre ++ (s, o) :: post).all (fun p => svcHealthy maxWait p.1 p.2) = false := by
      rw [Bool.eq_false_iff]
      intro hc
      rw [List.all_eq_true] at hc
      have := hc (s, o) (by simp)
      rw [hxbad] at this
      cases this
    rw [hA, Bool.false_and]

/-- C4: if a declared service fails its healthcheck within its timeout (all
earlier services having started and become healthy), the run records
`overall_passed = false`, the report's `results` list is empty (zero tests
attempted), per-service health/duration metadata for every started service is
still recorded, every started service is stopped in reverse start order
(`stopEvents` appends the stops reversed; the `finally` block repeats the
already performed stop), the process exits 1, and nothing leaks. -/
theorem c4_unhealthy_service_aborts_run (maxWait : Int)
    (pre : List (ServiceCfg × SvcOracle)) (s : ServiceCfg) (o : SvcOracle)
    (post : List (ServiceCfg × SvcOracle)) (tests : List (TestCfg × TestOracle))
    (hpre : ∀ p ∈ pre, p.2.spawnExc = false ∧ svcHealthy maxWait p.1 p.2 = true)
    (hs : o.spawnExc = false) (hbad : svcHealthy maxWait s o = false) :
    orchestrator_main maxWait (pre ++ (s, o) :: post) tests =
      { events :=
          (pre.map (fun p => Ev.svcStart p.1.name) ++ [Ev.svcStart s.name]) ++
          stopEvents (pre.map (fun p => p.1.name) ++ [s.name]) ++
          stopEvents (pre.map (fun p => p.1.name) ++ [s.name]),
        report := some ⟨false, pre.map mkMeta ++ [⟨s.name, false, o.duration⟩], []⟩,
        exitCode := some 1,
        leaked := [] } := by
  unfold orchestrator_main
  rw [start_services_unhealthy_at maxWait pre s o post hpre hs hbad]

theorem c4_witness :
    (∀ p ∈ ([] : List (ServiceCfg × SvcOracle)),
        p.2.spawnExc = false ∧ svcHealthy 0 p.1 p.2 = true) ∧
    (⟨false, 0, (fun _ => 0), (fun _ => false), 1, 7⟩ : SvcOracle).spawnExc = false ∧
    svcHealthy 0 ⟨"api", some "http://localhost:5000/api/ping", 5⟩
      ⟨false, 0, (fun _ => 0), (fun _ => false), 1, 7⟩ = false ∧
    orchestrator_main 0
      [(⟨"api", some "http://localhost:5000/api/ping", 5⟩,
        ⟨false, 0, (fun _ => 0), (fun _ => false), 1, 7⟩)] [] =
      { events := [Ev.svcStart "api"] ++ stopEvents ["api"] ++ stopEvents ["api"],
        report := some ⟨false, [⟨"api", false, 7⟩], []⟩,
        exitCode := some 1,
        leaked := [] } :=
  ⟨(by intro p hp; cases hp), rfl, (by decide),
   c4_unhealthy_service_aborts_run 0 []
     ⟨"api", some "http://localhost:5000/api/ping", 5⟩
     ⟨false, 0, (fun _ => 0), (fun _ => false), 1, 7⟩ [] []
     (by intro p hp; cases hp) rfl (by decide)⟩

/-- C10: a healthcheck with a non-positive `timeout_sec` makes `wait_http`
return `False` without issuing a single HTTP request (the `while` guard
`time.time() - start < timeout_sec` fails on the very first evaluation, since
real time never runs backwards), so a service declaring a healthcheck URL
with `timeout_sec = 0` is immediately recorded unhealthy and the run aborts
with an empty `results` list before any test (stated with the
`--max-service-wait` override at its non-raising default, i.e. not strictly
positive). -/
theorem c10_nonpositive_timeout_zero_requests (maxWait : Int) (hmw : maxWait ≤ 0)
    (s : ServiceCfg) (o : SvcOracle) (u : String)
    (hurl : s.hcUrl = some u) (hu : u ≠ "") (ht : s.hcTimeout ≤ 0)
    (hclock : o.startT ≤ o.gclock 0) (hs : o.spawnExc = false)
    (pre post : List (ServiceCfg × SvcOracle))
    (hpre : ∀ p ∈ pre, p.2.spawnExc = false ∧ svcHealthy maxWait p.1 p.2 = true)
    (tests : List (TestCfg × TestOracle)) :
    wait_http (effTimeout maxWait s.hcTimeout) o.startT o.gclock o.poll o.fuel =
      (false, 0) ∧
    svcHealthy maxWait s o = false ∧
    (orchestrator_main maxWait (pre ++ (s, o) :: post) tests).report =
      some ⟨false, pre.map mkMeta ++ [⟨s.name, false, o.duration⟩], []⟩ ∧
    (orchestrator_main maxWait (pre ++ (s, o) :: post) tests).exitCode = some 1 := by
  have heff : effTimeout maxWait s.hcTimeout ≤ 0 := by
    unfold effTimeout
    rw [if_neg (by omega)]
    exact ht
  have hw := wait_http_nonpos (effTimeout maxWait s.hcTimeout) o.startT o.gclock o.poll
    o.fuel heff hclock
  have hh : svcHealthy maxWait s o = false := by
    unfold svcHealthy
    rw [hurl]
    show (if u ≠ "" then
        (wait_http (effTimeout maxWait s.hcTimeout) o.startT o.gclock o.poll o.fuel).1
      else true) = false
    rw [if_pos hu, hw]
  refine ⟨hw, hh, ?_, ?_⟩ <;>
    · unfold orchestrator_main
      rw [start_services_unhealthy_at maxWait pre s o post hpre hs hh]

theorem c10_witness :
    ((0 : Int) ≤ 0) ∧
    (⟨"fe", some "http://localhost:5173/", 0⟩ : ServiceCfg).hcUrl =
      some "http://localhost:5173/" ∧
    ("http://localhost:5173/" : String) ≠ "" ∧
    (⟨"fe", some "http://localhost:5173/", 0⟩ : ServiceCfg).hcTimeout ≤ 0 ∧
    (⟨false, 10, (fun _ => 11), (fun _ => true), 5, 2⟩ : SvcOracle).startT ≤
      (⟨false, 10, (fun _ => 11), (fun _ => true), 5, 2⟩ : SvcOracle).gclock 0 ∧
    wait_http (effTimeout 0 0) 10 (fun _ => 11) (fun _ => true) 5 = (false, 0) ∧
    svcHealthy 0 ⟨"fe", some "http://localhost:5173/", 0⟩
      ⟨false, 10, (fun _ => 11), (fun _ => true), 5, 2⟩ = false ∧
    (orchestrator_main 0
        [(⟨"fe", some "http://localhost:5173/", 0⟩,
          ⟨false, 10, (fun _ => 11), (fun _ => true), 5, 2⟩)] []).report =
      some ⟨false, [⟨"fe", false, 2⟩], []⟩ :=
  ⟨le_refl 0, rfl, (by decide), (by decide), (by decide),
   (c10_nonpositive_timeout_zero_requests 0 (le_refl 0)
      ⟨"fe", some "http://localhost:5173/", 0⟩
      ⟨false, 10, (fun _ => 11), (fun _ => true), 5, 2⟩
      "http://localhost:5173/" rfl (by decide) (by decide) (by decide) rfl
      [] [] (by intro p hp; cases hp) []).1,
   (c10_nonpositive_timeout_zero_requests 0 (le_refl 0)
      ⟨"fe", some "http://localhost:5173/", 0⟩
      ⟨false, 10, (fun _ => 11), (fun _ => true), 5, 2⟩
      "http://localhost:5173/" rfl (by decide) (by decide) (by decide) rfl
      [] [] (by intro p hp; cases hp) []).2.1,
   (c10_nonpositive_timeout_zero_requests 0 (le_refl 0)
      ⟨"fe", some "http://localhost:5173/", 0⟩
      ⟨false, 10, (fun _ => 11), (fun _ => true), 5, 2⟩
      "http://localhost:5173/" rfl (by decide) (by decide) (by decide) rfl
      [] [] (by intro p hp; cases hp) []).2.2.1⟩

/-! ## Claim C5: retries and one-shot installs -/

theorem runInstallGo_names (tname : String) (rc : Nat → Int) :
    ∀ n i e, e ∈ (runInstallGo tname rc n i).1 → evTestName e = some tname := by
  intro n
  induction n with
  | zero => intro i e he; cases he
  | succ n ih =>
      intro i e he
      simp only [runInstallGo] at he
      by_cases h : rc i ≠ 0
      · rw [if_pos h] at he
        simp only [List.mem_singleton] at he
        subst he; rfl
      · rw [if_neg h] at he
        simp only [List.mem_cons] at he
        rcases he with rfl | he'
        · rfl
        · exact ih (i + 1) e he'

theorem runAttemptsGo_names (tname : String) (rc : Nat → Int) :
    ∀ r a e, e ∈ (runAttemptsGo tname rc r a).1 → evTestName e = some tname := by
  intro r
  induction r with
  | zero =>
      intro a e he
      simp only [runAttemptsGo, List.mem_singleton] at he
      subst he; rfl
  | succ r ih =>
      intro a e he
      simp only [runAttemptsGo] at he
      by_cases h : rc a = 0
      · rw [if_pos h] at he
        simp only [List.mem_singleton] at he
        subst he; rfl
      · rw [if_neg h] at he
        simp only [List.mem_cons] at he
        rcases he with rfl | he'
        · rfl
        · exact ih (a + 1) e he'

theorem run_one_test_ev_names (t : TestCfg) (o : TestOracle) (e : Ev)
    (he : e ∈ (run_one_test t o).1) : evTestName e = some t.name := by
  unfold run_one_test at he
  rcases hi : (runInstallGo t.name o.installRc t.install.length 0) with ⟨ievs, ifail⟩
  rw [hi] at he
  cases ifail with
  | some rc =>
      simp only at he
      exact runInstallGo_names t.name o.installRc t.install.length 0 e (hi ▸ he)
  | none =>
      simp only at he
      rcases List.mem_append.mp he with h1 | h2
      · exact runInstallGo_names t.name o.installRc t.install.length 0 e (hi ▸ h1)
      · rcases ha : (runAttemptsGo t.name o.attemptRc t.retries.toNat 1) with ⟨aevs, fin⟩
        rw [ha] at h2
        exact runAttemptsGo_names t.name o.attemptRc t.retries.toNat 1 e (ha ▸ h2)

theorem run_one_test_result_name (t : TestCfg) (o : TestOracle) :
    (run_one_test t o).2.name = t.name := by
  unfold run_one_test
  rcases hi : (runInstallGo t.name o.installRc t.install.length 0) with ⟨ievs, ifail⟩
  cases ifail <;> rfl

theorem runInstallGo_all_zero (tname : String) (rc : Nat → Int)
    (hz : ∀ i, rc i = 0) :
    ∀ n i, runInstallGo tname rc n i =
      ((List.range' i n).map (Ev.installCmd tname), none) := by
  intro n
  induction n with
  | zero => intro i; rfl
  | succ n ih =>
      intro i
      simp only [runInstallGo, hz i, ne_eq, not_true_eq_false, if_false, ih (i + 1),
        List.range'_succ, List.map_cons]

theorem runAttemptsGo_all_fail (tname : String) (rc : Nat → Int)
    (hf : ∀ a, rc a ≠ 0) :
    ∀ r a, runAttemptsGo tname rc r a =
      ((List.range' a (r + 1)).map (Ev.testAttempt tname), a + r) := by
  intro r
  induction r with
  | zero =>
      intro a
      simp [runAttemptsGo, List.range'_succ]
  | succ r ih =>
      intro a
      simp only [runAttemptsGo, hf a, if_false, ih (a + 1), List.range'_succ, List.map_cons]
      have harith : a + 1 + r = a + (r + 1) := by omega
      rw [harith]

theorem filter_events_of_other_tests (t : TestCfg)
    (rest : List (TestCfg × TestOracle))
    (hne : ∀ q ∈ rest, (q.1.name == t.name) = false) :
    (runTestsGo rest).1.filter (fun e => evTestName e == some t.name) = [] := by
  rw [List.filter_eq_nil_iff]
  intro e he
  induction rest with
  | nil => cases he
  | cons q rest ih =>
      obtain ⟨t', o'⟩ := q
      simp only [runTestsGo] at he
      rcases List.mem_append.mp he with h1 | h2
      · have hn := run_one_test_ev_names t' o' e h1
        rw [hn]
        have : (t'.name == t.name) = false := hne (t', o') (by simp)
        simpa using this
      · exact ih (fun q hq => hne q (by simp [hq])) h2

theorem filter_results_of_other_tests (t : TestCfg)
    (rest : List (TestCfg × TestOracle))
    (hne : ∀ q ∈ rest, (q.1.name == t.name) = false) :
    (runTestsGo rest).2.filter (fun r => r.name == t.name) = [] := by
  rw [List.filter_eq_nil_iff]
  intro r hr
  rw [runTestsGo_results] at hr
  obtain ⟨q, hq, rfl⟩ := List.mem_map.mp hr
  rw [run_one_test_result_name]
  have := hne q hq
  simpa using this

/-- The reported result and event block for a test whose installs all succeed
and whose command fails on every one of its `retries = 2`-budgeted attempts. -/
theorem run_one_test_retries2_all_fail (t : TestCfg) (o : TestOracle)
    (hretries : t.retries = 2) (hfail : ∀ a, o.attemptRc a ≠ 0)
    (hinst : ∀ i, o.installRc i = 0) :
    run_one_test t o =
      ((List.range' 0 t.install.length).map (Ev.installCmd t.name) ++
        [Ev.testAttempt t.name 1, Ev.testAttempt t.name 2, Ev.testAttempt t.name 3],
       ⟨t.name, t.ttype, o.attemptRc 3, none, 3⟩) := by
  unfold run_one_test
  rw [runInstallGo_all_zero t.name o.installRc hinst t.install.length 0]
  simp only []
  rw [hretries]
  rw [runAttemptsGo_all_fail t.name o.attemptRc hfail (Int.toNat 2) 1]
  rfl

/-- C5: a test declared with `retries = 2` whose command fails every attempt
contributes exactly one entry to the report's `results`, and that entry
reflects only the final (third) attempt's outcome; its install commands run
exactly once each, before the first attempt, and are not re-run between
retries.  The test is identified by name (`huniq` says the plan declares that
name exactly once), the filtered event trace is exactly its install commands
(indices `0 .. installs-1`, in order) followed by attempts 1, 2 and 3. -/
theorem c5_retries_final_attempt_install_once (tests : List (TestCfg × TestOracle))
    (t : TestCfg) (o : TestOracle)
    (hmem : (t, o) ∈ tests)
    (huniq : tests.countP (fun q => q.1.name == t.name) = 1)
    (hretries : t.retries = 2)
    (hfail : ∀ a, o.attemptRc a ≠ 0)
    (hinst : ∀ i, o.installRc i = 0) :
    (runTestsGo tests).2.filter (fun r => r.name == t.name) =
      [⟨t.name, t.ttype, o.attemptRc 3, none, 3⟩] ∧
    (runTestsGo tests).1.filter (fun e => evTestName e == some t.name) =
      (List.range' 0 t.install.length).map (Ev.installCmd t.name) ++
      [Ev.testAttempt t.name 1, Ev.testAttempt t.name 2, Ev.testAttempt t.name 3] := by
  induction tests with
  | nil => cases hmem
  | cons q rest ih =>
      obtain ⟨t', o'⟩ := q
      by_cases hname : (t'.name == t.name) = true
      · -- the head is the unique plan entry carrying this name
        have hrest0 : rest.countP (fun q => q.1.name == t.name) = 0 := by
          simp only [List.countP_cons, hname, if_pos] at huniq
          omega
        have hrestne : ∀ q ∈ rest, (q.1.name == t.name) = false := by
          intro q hq
          by_contra hc
          have hq' : (fun q => q.1.name == t.name) q = true := by
            simpa using hc
          have hpos := (List.countP_pos (p := fun q => q.1.name == t.name)
            (l := rest)).mpr ⟨q, hq, hq'⟩
          omega
        have hhead : (t, o) = (t', o') := by
          rcases List.mem_cons.mp hmem with h | h
          · exact h
          · exact absurd (hrestne (t, o) h) (by simp)
        obtain ⟨rfl, rfl⟩ := Prod.mk.inj hhead
        have hone := run_one_test_retries2_all_fail t o hretries hfail hinst
        rcases h2 : runTestsGo rest with ⟨revs, rres⟩
        have hfr : rres.filter (fun r => r.name == t.name) = [] := by
          have hx := filter_results_of_other_tests t rest hrestne
          rw [h2] at hx
          exact hx
        have hfe : revs.filter (fun e => evTestName e == some t.name) = [] := by
          have hx := filter_events_of_other_tests t rest hrestne
          rw [h2] at hx
          exact hx
        simp only [runTestsGo, hone, h2]
        constructor
        · rw [List.filter_cons]
          simp only [hfr]
          rw [if_pos (by simp)]
        · rw [List.filter_append, hfe, List.append_nil, List.filter_append]
          congr 1
          · rw [List.filter_eq_self]
            intro e he
            obtain ⟨i, _, rfl⟩ := List.mem_map.mp he
            simp [evTestName]
          · simp [evTestName]
      · -- the head is a different test: nothing it produces survives the filters
        have hname' : (t'.name == t.name) = false := by
          simpa using hname
        have hmem' : (t, o) ∈ rest := by
          rcases List.mem_cons.mp hmem with h | h
          · obtain ⟨rfl, rfl⟩ := Prod.mk.inj h
            simp at hname'
          · exact h
        have huniq' : rest.countP (fun q => q.1.name == t.name) = 1 := by
          simp only [List.countP_cons] at huniq
          rw [hname'] at huniq
          simpa using huniq
        obtain ⟨ih1, ih2⟩ := ih hmem' huniq'
        rcases h1 : run_one_test t' o' with ⟨evs', res'⟩
        rcases h2 : runTestsGo rest with ⟨revs, rres⟩
        rw [h2] at ih1 ih2
        simp only [runTestsGo, h1, h2]
        constructor
        · rw [List.filter_cons]
          rw [if_neg ?_]
          · exact ih1
          · have hrn : res'.name = t'.name := by
              have hx := run_one_test_result_name t' o'
              rw [h1] at hx
              exact hx
            rw [hrn, hname']
            simp
        · rw [List.filter_append]
          have hev : evs'.filter (fun e => evTestName e == some t.name) = [] := by
            rw [List.filter_eq_nil_iff]
            intro e he
            have hx := run_one_test_ev_names t' o' e (by rw [h1]; exact he)
            rw [hx]
            simp [hname']
          rw [hev, List.nil_append]
          exact ih2

theorem c5_witness :
    ((⟨"be-tests", "junit", [["pip", "install"]], 2⟩ : TestCfg),
     (⟨(fun _ => 0), (fun _ => 1)⟩ : TestOracle)) ∈
      [((⟨"be-tests", "junit", [["pip", "install"]], 2⟩ : TestCfg),
        (⟨(fun _ => 0), (fun _ => 1)⟩ : TestOracle))] ∧
    [((⟨"be-tests", "junit", [["pip", "install"]], 2⟩ : TestCfg),
      (⟨(fun _ => 0), (fun _ => 1)⟩ : TestOracle))].countP
        (fun q => q.1.name == "be-tests") = 1 ∧
    (⟨"be-tests", "junit", [["pip", "install"]], 2⟩ : TestCfg).retries = 2 ∧
    ((runTestsGo
        [((⟨"be-tests", "junit", [["pip", "install"]], 2⟩ : TestCfg),
          (⟨(fun _ => 0), (fun _ => 1)⟩ : TestOracle))]).2.filter
        (fun r => r.name == "be-tests") =
      [⟨"be-tests", "junit", 1, none, 3⟩] ∧
     (runTestsGo
        [((⟨"be-tests", "junit", [["pip", "install"]], 2⟩ : TestCfg),
          (⟨(fun _ => 0), (fun _ => 1)⟩ : TestOracle))]).1.filter
        (fun e => evTestName e == some "be-tests") =
      (List.range' 0 1).map (Ev.installCmd "be-tests") ++
      [Ev.testAttempt "be-tests" 1, Ev.testAttempt "be-tests" 2,
       Ev.testAttempt "be-tests" 3]) :=
  ⟨List.mem_singleton.mpr rfl, by decide, rfl,
   c5_retries_final_attempt_install_once
     [((⟨"be-tests", "junit", [["pip", "install"]], 2⟩ : TestCfg),
       (⟨(fun _ => 0), (fun _ => 1)⟩ : TestOracle))]
     ⟨"be-tests", "junit", [["pip", "install"]], 2⟩
     ⟨(fun _ => 0), (fun _ => 1)⟩
     (List.mem_singleton.mpr rfl) (by decide) rfl
     (by intro a; show (1 : Int) ≠ 0; omega) (by intro i; rfl)⟩

theorem c3_witness :
    (∀ p ∈ [((⟨"be", none, 20⟩ : ServiceCfg),
             (⟨false, 0, (fun _ => 1), (fun _ => true), 3, 4⟩ : SvcOracle))],
        p.2.spawnExc = false) ∧
    (∃ rep,
      (orchestrator_main 0
          [((⟨"be", none, 20⟩ : ServiceCfg),
            (⟨false, 0, (fun _ => 1), (fun _ => true), 3, 4⟩ : SvcOracle))]
          [((⟨"t", "raw", [], 0⟩ : TestCfg),
            (⟨(fun _ => 0), (fun _ => 0)⟩ : TestOracle))]).report = some rep ∧
      rep.overall_passed =
        ([((⟨"be", none, 20⟩ : ServiceCfg),
           (⟨false, 0, (fun _ => 1), (fun _ => true), 3, 4⟩ : SvcOracle))].all
           (fun p => svcHealthy 0 p.1 p.2) &&
         [((⟨"t", "raw", [], 0⟩ : TestCfg),
           (⟨(fun _ => 0), (fun _ => 0)⟩ : TestOracle))].all
           (fun q => (run_one_test q.1 q.2).2.returncode == 0)) ∧
      (orchestrator_main 0
          [((⟨"be", none, 20⟩ : ServiceCfg),
            (⟨false, 0, (fun _ => 1), (fun _ => true), 3, 4⟩ : SvcOracle))]
          [((⟨"t", "raw", [], 0⟩ : TestCfg),
            (⟨(fun _ => 0), (fun _ => 0)⟩ : TestOracle))]).exitCode =
        some (if rep.overall_passed then 0 else 1)) :=
  ⟨(by intro p hp; rw [List.mem_singleton] at hp; subst hp; rfl),
   c3_overall_passed_iff_and_exit_code 0
     [((⟨"be", none, 20⟩ : ServiceCfg),
       (⟨false, 0, (fun _ => 1), (fun _ => true), 3, 4⟩ : SvcOracle))]
     [((⟨"t", "raw", [], 0⟩ : TestCfg),
       (⟨(fun _ => 0), (fun _ => 0)⟩ : TestOracle))]
     (by intro p hp; rw [List.mem_singleton] at hp; subst hp; rfl)⟩


/-! ## Claim C1: path sandboxing and (non-)idempotence -/

theorem strStartsWith_iff (s pre : String) :
    strStartsWith s pre = true ↔ pre.data <+: s.data := by
  unfold strStartsWith
  exact List.isPrefixOf_iff_prefix

theorem prefix_of_append_single {α : Type} {p x : List α} {d : α}
    (h : p <+: x ++ [d]) : p <+: x ∨ p = x ++ [d] := by
  by_cases hl : p.length ≤ x.length
  · exact Or.inl (List.prefix_of_prefix_length_le h (List.prefix_append x [d]) hl)
  · right
    have h1 := h.length_le
    rw [List.length_append, List.length_singleton] at h1
    have hlen : p.length = (x ++ [d]).length := by
      rw [List.length_append, List.length_singleton]
      omega
    exact List.IsPrefix.eq_of_length h hlen

theorem startsWith_append_slash (c root : String)
    (h : strStartsWith (c ++ "/") (root ++ "/") = true) :
    c = root ∨ strStartsWith c (root ++ "/") = true := by
  rw [strStartsWith_iff, String.data_append, String.data_append] at h
  have hslash : ("/" : String).data = ['/'] := rfl
  rw [hslash] at h
  rcases prefix_of_append_single h with h1 | h2
  · right
    rw [strStartsWith_iff, String.data_append, hslash]
    exact h1
  · left
    have hdata : root.data = c.data := List.append_left_injective ['/'] h2
    ext1
    exact hdata.symm

theorem startsWith_expanded_content (slug c : String) :
    strStartsWith ("content/code/" ++ slug ++ "/" ++ c) "content/" = true := by
  rw [strStartsWith_iff, String.data_append, String.data_append, String.data_append]
  have h1 : ("content/" : String).data <+: ("content/code/" : String).data := by decide
  exact ((h1.trans (List.prefix_append _ _)).trans (List.prefix_append _ _)).trans
    (List.prefix_append _ _)

theorem replace_keeps_content (cs : List Char)
    (h : ("content/" : String).data <+: cs) :
    ("content/" : String).data <+: replaceBackslashChars cs := by
  rcases h with ⟨t, rfl⟩
  unfold replaceBackslashChars
  rw [List.map_append]
  have hfix : ("content/" : String).data.map (fun c => if c = '\\' then '/' else c) =
      ("content/" : String).data := by decide
  rw [hfix]
  exact List.prefix_append _ _

theorem strip_keeps_content (cs : List Char)
    (h : ("content/" : String).data <+: cs) :
    stripDotSlashChars cs = cs := by
  rcases h with ⟨t, ht⟩
  rw [← ht]
  rfl

theorem normCwd_keeps_content (c : String) (h : strStartsWith c "content/" = true) :
    strStartsWith (normCwd c) "content/" = true := by
  rw [strStartsWith_iff] at h ⊢
  unfold normCwd
  have h2 := replace_keeps_content c.data h
  show ("content/" : String).data <+: (String.mk (stripDotSlashChars (replaceBackslashChars c.data))).data
  rw [strip_keeps_content _ h2]
  exact h2

theorem content_not_rooted (c : String) (h : strStartsWith c "content/" = true) :
    rootedOk c = false := by
  rw [Bool.eq_false_iff]
  intro hr
  unfold rootedOk at hr
  rw [Bool.or_eq_true, Bool.or_eq_true, Bool.or_eq_true] at hr
  rw [strStartsWith_iff] at h
  rcases hr with ((hb | hb) | hf) | hf
  · have hc : c = "backend" := of_decide_eq_true hb
    subst hc
    exact absurd h (by decide)
  · rw [strStartsWith_iff] at hb
    have hle : ("backend/" : String).data.length ≤ ("content/" : String).data.length := by
      decide
    have hpp := List.prefix_of_prefix_length_le hb h hle
    exact absurd hpp (by decide)
  · have hc : c = "frontend" := of_decide_eq_true hf
    subst hc
    exact absurd h (by decide)
  · rw [strStartsWith_iff] at hf
    have hle : ("content/" : String).data.length ≤ ("frontend/" : String).data.length := by
      decide
    have hpp := List.prefix_of_prefix_length_le h hf hle
    exact absurd hpp (by decide)

theorem startsWith_append_right (s t pre : String)
    (h : strStartsWith s pre = true) : strStartsWith (s ++ t) pre = true := by
  rw [strStartsWith_iff, String.data_append] at *
  exact h.trans (List.prefix_append _ _)

/-- Any cwd whose normalized form starts with `content/` is rejected with the
`ValueError` — in particular every cwd that `_expand_project_paths` itself
produced. -/
theorem expand_cwd_content_error (slug c : String)
    (h : strStartsWith c "content/" = true) :
    expand_cwd slug c = .error ("Illegal test/service cwd: " ++ normCwd c) := by
  have hn : strStartsWith (normCwd c) "content/" = true := normCwd_keeps_content c h
  have hr : rootedOk (normCwd c) = false := content_not_rooted _ hn
  unfold rootedOk at hr
  rw [Bool.or_eq_false_iff, Bool.or_eq_false_iff, Bool.or_eq_false_iff] at hr
  obtain ⟨⟨⟨hb1, hb2⟩, hf1⟩, hf2⟩ := hr
  unfold expand_cwd
  rw [if_neg (by rw [hb1, hb2]; simp)]
  rw [if_neg (by rw [hf1, hf2]; simp)]
  have hprobe : strStartsWith
      (if strEndsWith (normCwd c) "/" then normCwd c else normCwd c ++ "/")
      "content/" = true := by
    by_cases he : strEndsWith (normCwd c) "/" = true
    · rw [if_pos he]; exact hn
    · rw [if_neg he]; exact startsWith_append_right _ _ _ hn
  have hsafe : is_safe_relpath
      (if strEndsWith (normCwd c) "/" then normCwd c else normCwd c ++ "/") = false := by
    unfold is_safe_relpath
    rw [if_pos (by rw [hprobe]; simp)]
  rw [if_neg (by rw [hsafe]; simp)]

/-- `expand_cwd` accepts exactly the `backend`/`frontend`-rooted normalized
cwds, and rewrites them under `content/code/{slug}/`. -/
theorem expand_cwd_ok_rooted (slug cwd c' : String)
    (h : expand_cwd slug cwd = .ok c') :
    rootedOk (normCwd cwd) = true ∧
    c' = "content/code/" ++ slug ++ "/" ++ normCwd cwd := by
  unfold expand_cwd at h
  by_cases h1 : (normCwd cwd = "backend" || strStartsWith (normCwd cwd) "backend/") = true
  · rw [if_pos h1] at h
    refine ⟨?_, (Except.ok.inj h).symm⟩
    simp only [Bool.or_eq_true, decide_eq_true_eq] at h1
    simp only [rootedOk, Bool.or_eq_true, decide_eq_true_eq]
    tauto
  · rw [if_neg h1] at h
    by_cases h2 : (normCwd cwd = "frontend" || strStartsWith (normCwd cwd) "frontend/") = true
    · rw [if_pos h2] at h
      refine ⟨?_, (Except.ok.inj h).symm⟩
      simp only [Bool.or_eq_true, decide_eq_true_eq] at h2
      simp only [rootedOk, Bool.or_eq_true, decide_eq_true_eq]
      tauto
    · rw [if_neg h2] at h
      by_cases h3 : is_safe_relpath
          (if strEndsWith (normCwd cwd) "/" then normCwd cwd else normCwd cwd ++ "/") = true
      · -- the probe branch can only succeed on a backend/frontend root,
        -- contradicting the failure of the two earlier branches
        exfalso
        unfold is_safe_relpath at h3
        by_cases hbad : (strStartsWith
            (if strEndsWith (normCwd cwd) "/" then normCwd cwd else normCwd cwd ++ "/") "../" ||
          strStartsWith
            (if strEndsWith (normCwd cwd) "/" then normCwd cwd else normCwd cwd ++ "/") "/" ||
          strStartsWith
            (if strEndsWith (normCwd cwd) "/" then normCwd cwd else normCwd cwd ++ "/")
            "content/") = true
        · rw [if_pos hbad] at h3
          cases h3
        · rw [if_neg hbad] at h3
          rw [Bool.or_eq_true] at h3
          by_cases he : strEndsWith (normCwd cwd) "/" = true
          · rw [if_pos he] at h3
            rcases h3 with hb | hf
            · exact h1 (by rw [hb]; simp)
            · exact h2 (by rw [hf]; simp)
          · rw [if_neg he] at h3
            rcases h3 with hb | hf
            · have hsplit := startsWith_append_slash (normCwd cwd) "backend"
                (by
                  have : ("backend" ++ "/" : String) = "backend/" := by decide
                  rw [this]
                  exact hb)
              rcases hsplit with hc | hc
              · exact h1 (by rw [hc]; simp)
              · have : ("backend" ++ "/" : String) = "backend/" := by decide
                rw [this] at hc
                exact h1 (by rw [hc]; simp)
            · have hsplit := startsWith_append_slash (normCwd cwd) "frontend"
                (by
                  have : ("frontend" ++ "/" : String) = "frontend/" := by decide
                  rw [this]
                  exact hf)
              rcases hsplit with hc | hc
              · exact h2 (by rw [hc]; simp)
              · have : ("frontend" ++ "/" : String) = "frontend/" := by decide
                rw [this] at hc
                exact h2 (by rw [hc]; simp)
      · rw [if_neg h3] at h
        cases h


theorem startsWith_content_ne_empty (c : String)
    (h : strStartsWith c "content/" = true) : c ≠ "" := by
  intro he
  subst he
  rw [strStartsWith_iff] at h
  exact absurd h (by decide)

theorem replace_keeps_content_str (c : String)
    (h : strStartsWith c "content/" = true) :
    strStartsWith (String.mk (replaceBackslashChars c.data)) "content/" = true := by
  rw [strStartsWith_iff] at h ⊢
  exact replace_keeps_content c.data h

/-- `expandJunit` only reads the `type` and `junit_xml` keys. -/
theorem expandJunit_congr (slug : String) (t₁ t₂ : PTest)
    (h1 : t₁.ttype = t₂.ttype) (h2 : t₁.junit_xml = t₂.junit_xml) :
    expandJunit slug t₁ = expandJunit slug t₂ := by
  unfold expandJunit
  rw [h1, h2]

/-- On a test whose `junit_xml` is already an output of `expandJunit`, a
second `expandJunit` pass keeps the value unchanged: an added prefix starts
with `content/`, which the `startswith` guard then leaves alone. -/
theorem expandJunit_stable (slug : String) (t t' : PTest)
    (h1 : t'.ttype = t.ttype) (h2 : t'.junit_xml = expandJunit slug t) :
    expandJunit slug t' = t'.junit_xml := by
  by_cases ht : t.ttype = some "junit"
  · cases hj : t.junit_xml with
    | none =>
        have hval : t'.junit_xml = none := by
          simp [h2, expandJunit, ht, hj]
        simp [expandJunit, h1, ht, hval]
    | some j0 =>
        by_cases hj0 : j0 = ""
        · subst hj0
          have hval : t'.junit_xml = some "" := by
            simp [h2, expandJunit, ht, hj]
          simp [expandJunit, h1, ht, hval]
        · by_cases hc : strStartsWith (String.mk (replaceBackslashChars j0.data))
              "content/" = true
          · have hval : t'.junit_xml = some j0 := by
              simp [h2, expandJunit, ht, hj, hj0, hc]
            simp [expandJunit, h1, ht, hval, hj0, hc]
          · have hval : t'.junit_xml =
                some ("content/code/" ++ slug ++ "/" ++
                  String.mk (replaceBackslashChars j0.data)) := by
              simp [h2, expandJunit, ht, hj, hj0, hc]
            have hstart := startsWith_expanded_content slug
              (String.mk (replaceBackslashChars j0.data))
            have hne := startsWith_content_ne_empty _ hstart
            have hkeep := replace_keeps_content_str _ hstart
            simp at hkeep
            simp [expandJunit, h1, ht, hval, hne, hkeep]
  · simp [expandJunit, h1, ht]


theorem expandSvcList_ok_spec (slug : String) :
    ∀ (svcs ss : List PSvc), expandSvcList slug svcs = .ok ss →
      (∀ s ∈ svcs, ∀ c, s.cwd = some c → rootedOk (normCwd c) = true) ∧
      (∀ s' ∈ ss, ∀ c', s'.cwd = some c' → strStartsWith c' "content/" = true) ∧
      ss.any (fun s => s.cwd.isSome) = svcs.any (fun s => s.cwd.isSome) := by
  intro svcs
  induction svcs with
  | nil =>
      intro ss h
      simp only [expandSvcList] at h
      obtain rfl := Except.ok.inj h
      exact ⟨(by intro s hs; cases hs), (by intro s hs; cases hs), rfl⟩
  | cons s rest ih =>
      intro ss h
      cases hcw : s.cwd with
      | some c =>
          simp only [expandSvcList, hcw] at h
          cases hec : expand_cwd slug c with
          | ok c2 =>
              simp only [hec] at h
              cases hrest : expandSvcList slug rest with
              | ok ss2 =>
                  simp only [hrest] at h
                  obtain rfl := Except.ok.inj h
                  obtain ⟨ih1, ih2, ih3⟩ := ih ss2 hrest
                  obtain ⟨hroot, hc2⟩ := expand_cwd_ok_rooted slug c c2 hec
                  refine ⟨?_, ?_, ?_⟩
                  · intro s0 hs0 c0 hc0
                    rcases List.mem_cons.mp hs0 with rfl | hmem
                    · rw [hcw] at hc0
                      obtain rfl := Option.some.inj hc0
                      exact hroot
                    · exact ih1 s0 hmem c0 hc0
                  · intro s0 hs0 c0 hc0
                    rcases List.mem_cons.mp hs0 with rfl | hmem
                    · obtain rfl : c2 = c0 := Option.some.inj hc0
                      rw [hc2]
                      exact startsWith_expanded_content slug (normCwd c)
                    · exact ih2 s0 hmem c0 hc0
                  · simp [hcw, ih3]
              | error e => simp only [hrest] at h; cases h
          | error e => simp only [hec] at h; cases h
      | none =>
          simp only [expandSvcList, hcw] at h
          cases hrest : expandSvcList slug rest with
          | ok ss2 =>
              simp only [hrest] at h
              obtain rfl := Except.ok.inj h
              obtain ⟨ih1, ih2, ih3⟩ := ih ss2 hrest
              refine ⟨?_, ?_, ?_⟩
              · intro s0 hs0 c0 hc0
                rcases List.mem_cons.mp hs0 with rfl | hmem
                · rw [hcw] at hc0; cases hc0
                · exact ih1 s0 hmem c0 hc0
              · intro s0 hs0 c0 hc0
                rcases List.mem_cons.mp hs0 with rfl | hmem
                · rw [hcw] at hc0; cases hc0
                · exact ih2 s0 hmem c0 hc0
              · simp [hcw, ih3]
          | error e => simp only [hrest] at h; cases h

theorem expandTestList_ok_spec (slug : String) :
    ∀ (ts ts' : List PTest), expandTestList slug ts = .ok ts' →
      (∀ t ∈ ts, ∀ c, t.cwd = some c → rootedOk (normCwd c) = true) ∧
      (∀ t' ∈ ts', ∀ c', t'.cwd = some c' → strStartsWith c' "content/" = true) ∧
      (∀ t' ∈ ts', expandJunit slug t' = t'.junit_xml) ∧
      ts'.any (fun t => t.cwd.isSome) = ts.any (fun t => t.cwd.isSome) := by
  intro ts
  induction ts with
  | nil =>
      intro ts' h
      simp only [expandTestList] at h
      obtain rfl := Except.ok.inj h
      exact ⟨(by intro t ht; cases ht), (by intro t ht; cases ht),
        (by intro t ht; cases ht), rfl⟩
  | cons t rest ih =>
      intro ts' h
      simp only [expandTestList] at h
      cases hcw : t.cwd with
      | some c =>
          simp only [expandTestPaths, hcw] at h
          cases hec : expand_cwd slug c with
          | ok c2 =>
              simp only [hec] at h
              cases hrest : expandTestList slug rest with
              | ok ts2 =>
                  simp only [hrest] at h
                  obtain rfl := Except.ok.inj h
                  obtain ⟨ih1, ih2, ih3, ih4⟩ := ih ts2 hrest
                  obtain ⟨hroot, hc2⟩ := expand_cwd_ok_rooted slug c c2 hec
                  refine ⟨?_, ?_, ?_, ?_⟩
                  · intro t0 ht0 c0 hc0
                    rcases List.mem_cons.mp ht0 with rfl | hmem
                    · rw [hcw] at hc0
                      obtain rfl := Option.some.inj hc0
                      exact hroot
                    · exact ih1 t0 hmem c0 hc0
                  · intro t0 ht0 c0 hc0
                    rcases List.mem_cons.mp ht0 with rfl | hmem
                    · obtain rfl : c2 = c0 := Option.some.inj hc0
                      rw [hc2]
                      exact startsWith_expanded_content slug (normCwd c)
                    · exact ih2 t0 hmem c0 hc0
                  · intro t0 ht0
                    rcases List.mem_cons.mp ht0 with rfl | hmem
                    · exact expandJunit_stable slug t _ rfl rfl
                    · exact ih3 t0 hmem
                  · simp [hcw, ih4]
              | error e => simp only [hrest] at h; cases h
          | error e => simp only [hec] at h; cases h
      | none =>
          simp only [expandTestPaths, hcw] at h
          cases hrest : expandTestList slug rest with
          | ok ts2 =>
              simp only [hrest] at h
              obtain rfl := Except.ok.inj h
              obtain ⟨ih1, ih2, ih3, ih4⟩ := ih ts2 hrest
              refine ⟨?_, ?_, ?_, ?_⟩
              · intro t0 ht0 c0 hc0
                rcases List.mem_cons.mp ht0 with rfl | hmem
                · rw [hcw] at hc0; cases hc0
                · exact ih1 t0 hmem c0 hc0
              · intro t0 ht0 c0 hc0
                rcases List.mem_cons.mp ht0 with rfl | hmem
                · simp at hc0
                · exact ih2 t0 hmem c0 hc0
              · intro t0 ht0
                rcases List.mem_cons.mp ht0 with rfl | hmem
                · exact expandJunit_stable slug t _ rfl rfl
                · exact ih3 t0 hmem
              · simp [hcw, ih4]
          | error e => simp only [hrest] at h; cases h


theorem expandSvcList_second (slug : String) :
    ∀ ss : List PSvc,
      (∀ s ∈ ss, ∀ c, s.cwd = some c → strStartsWith c "content/" = true) →
      (ss.any (fun s => s.cwd.isSome) = true →
        ∃ e, expandSvcList slug ss = .error e) ∧
      (ss.any (fun s => s.cwd.isSome) = false →
        expandSvcList slug ss = .ok ss) := by
  intro ss
  induction ss with
  | nil =>
      intro _
      exact ⟨(by intro h; cases h), fun _ => rfl⟩
  | cons s rest ih =>
      intro hss
      have ihr := ih (fun q hq => hss q (by simp [hq]))
      constructor
      · intro hany
        cases hcw : s.cwd with
        | some c =>
            have hc := hss s (by simp) c hcw
            have herr := expand_cwd_content_error slug c hc
            exact ⟨"Illegal test/service cwd: " ++ normCwd c,
              by simp only [expandSvcList, hcw, herr]⟩
        | none =>
            have hany' : rest.any (fun s => s.cwd.isSome) = true := by
              simp only [List.any_cons, hcw, Option.isSome_none, Bool.false_or] at hany
              exact hany
            obtain ⟨e, he⟩ := ihr.1 hany'
            exact ⟨e, by simp only [expandSvcList, hcw, he]⟩
      · intro hnone
        cases hcw : s.cwd with
        | some c =>
            exfalso
            simp [List.any_cons, hcw] at hnone
        | none =>
            have hnone' : rest.any (fun s => s.cwd.isSome) = false := by
              simp only [List.any_cons, hcw, Option.isSome_none, Bool.false_or] at hnone
              exact hnone
            simp only [expandSvcList, hcw, ihr.2 hnone']

theorem expandTestList_second (slug : String) :
    ∀ ts : List PTest,
      (∀ t ∈ ts, ∀ c, t.cwd = some c → strStartsWith c "content/" = true) →
      (∀ t ∈ ts, expandJunit slug t = t.junit_xml) →
      (ts.any (fun t => t.cwd.isSome) = true →
        ∃ e, expandTestList slug ts = .error e) ∧
      (ts.any (fun t => t.cwd.isSome) = false →
        expandTestList slug ts = .ok ts) := by
  intro ts
  induction ts with
  | nil =>
      intro _ _
      exact ⟨(by intro h; cases h), fun _ => rfl⟩
  | cons t rest ih =>
      intro hts hjs
      have ihr := ih (fun q hq => hts q (by simp [hq])) (fun q hq => hjs q (by simp [hq]))
      constructor
      · intro hany
        cases hcw : t.cwd with
        | some c =>
            have hc := hts t (by simp) c hcw
            have herr := expand_cwd_content_error slug c hc
            exact ⟨"Illegal test/service cwd: " ++ normCwd c,
              by simp only [expandTestList, expandTestPaths, hcw, herr]⟩
        | none =>
            have hany' : rest.any (fun t => t.cwd.isSome) = true := by
              simp only [List.any_cons, hcw, Option.isSome_none, Bool.false_or] at hany
              exact hany
            obtain ⟨e, he⟩ := ihr.1 hany'
            refine ⟨e, ?_⟩
            have hj := hjs t (by simp)
            simp only [expandTestList, expandTestPaths, hcw, hj, he]
      · intro hnone
        cases hcw : t.cwd with
        | some c =>
            exfalso
            simp [List.any_cons, hcw] at hnone
        | none =>
            have hnone' : rest.any (fun t => t.cwd.isSome) = false := by
              simp only [List.any_cons, hcw, Option.isSome_none, Bool.false_or] at hnone
              exact hnone
            have hj := hjs t (by simp)
            have hteq : ({ cwd := none, ttype := t.ttype,
                           junit_xml := t.junit_xml, install := t.install,
                           cmd := t.cmd } : PTest) = t := by
              rw [← hcw]
            simp only [expandTestList, expandTestPaths, hcw, hj, hteq, ihr.2 hnone']

/-- C1 (amended): `_expand_project_paths` accepts a config only when every
service/test cwd normalizes to a `backend`/`frontend`-rooted path (any other
cwd raises the fatal `ValueError`), but it is NOT idempotent: re-applying it
to its own output raises on any output that still carries a cwd key (every
expanded cwd starts with `content/`, which `is_safe_relpath` rejects); only a
config with no cwd keys at all passes a second application unchanged. -/
theorem c1_expand_project_paths_amended (slug : String) (cfg cfg' : PCfg)
    (h : expand_project_paths slug cfg = .ok cfg') :
    (∀ s ∈ cfg.services, ∀ c, s.cwd = some c → rootedOk (normCwd c) = true) ∧
    (∀ t ∈ cfg.tests, ∀ c, t.cwd = some c → rootedOk (normCwd c) = true) ∧
    (cfgHasCwd cfg' = true → ∃ e, expand_project_paths slug cfg' = .error e) ∧
    (cfgHasCwd cfg' = false → expand_project_paths slug cfg' = .ok cfg') := by
  unfold expand_project_paths at h
  cases hsv : expandSvcList slug cfg.services with
  | error e =>
      simp only [hsv] at h
      exact Except.noConfusion h
  | ok ss =>
      simp only [hsv] at h
      cases hts : expandTestList slug cfg.tests with
      | error e =>
          simp only [hts] at h
          exact Except.noConfusion h
      | ok ts' =>
          simp only [hts] at h
          obtain rfl := Except.ok.inj h
          obtain ⟨hs1, hs2, _⟩ := expandSvcList_ok_spec slug _ _ hsv
          obtain ⟨ht1, ht2, ht3, _⟩ := expandTestList_ok_spec slug _ _ hts
          obtain ⟨hes, hos⟩ := expandSvcList_second slug ss hs2
          obtain ⟨het, hot⟩ := expandTestList_second slug ts' ht2 ht3
          refine ⟨hs1, ht1, ?_, ?_⟩
          · intro hhc
            unfold cfgHasCwd at hhc
            rw [Bool.or_eq_true] at hhc
            unfold expand_project_paths
            rcases hhc with ha | hb
            · obtain ⟨e, he⟩ := hes ha
              exact ⟨e, by simp only [he]⟩
            · by_cases hsa : ss.any (fun s => s.cwd.isSome) = true
              · obtain ⟨e, he⟩ := hes hsa
                exact ⟨e, by simp only [he]⟩
              · have hok := hos (by simpa using hsa)
                obtain ⟨e, he⟩ := het hb
                exact ⟨e, by simp only [hok, he]⟩
          · intro hhc
            unfold cfgHasCwd at hhc
            rw [Bool.or_eq_false_iff] at hhc
            unfold expand_project_paths
            simp only [hos hhc.1, hot hhc.2]

/-- C1 (counterexample to the claim as stated): the config with a single
service `cwd: backend` is accepted, but applying `_expand_project_paths` a
second time to its own output raises the fatal `ValueError` — the expanded
cwd `content/code/p/backend` begins with `content/`, which is exactly what
`is_safe_relpath` rejects.  So the function is not idempotent on accepted
configs. -/
theorem c1_counterexample :
    expand_project_paths "p" ⟨[⟨some "backend"⟩], []⟩ =
      Except.ok ⟨[⟨some "content/code/p/backend"⟩], []⟩ ∧
    expand_project_paths "p" ⟨[⟨some "content/code/p/backend"⟩], []⟩ =
      Except.error "Illegal test/service cwd: content/code/p/backend" := by
  constructor
  · rfl
  · rfl

theorem c1_witness :
    expand_project_paths "p" ⟨[⟨some "backend"⟩], []⟩ =
      Except.ok ⟨[⟨some "content/code/p/backend"⟩], []⟩ ∧
    ((∀ s ∈ ([⟨some "backend"⟩] : List PSvc), ∀ c, s.cwd = some c →
        rootedOk (normCwd c) = true) ∧
     (∀ t ∈ ([] : List PTest), ∀ c, t.cwd = some c →
        rootedOk (normCwd c) = true) ∧
     (cfgHasCwd ⟨[⟨some "content/code/p/backend"⟩], []⟩ = true →
        ∃ e, expand_project_paths "p" ⟨[⟨some "content/code/p/backend"⟩], []⟩ =
          .error e) ∧
     (cfgHasCwd ⟨[⟨some "content/code/p/backend"⟩], []⟩ = false →
        expand_project_paths "p" ⟨[⟨some "content/code/p/backend"⟩], []⟩ =
          .ok ⟨[⟨some "content/code/p/backend"⟩], []⟩)) :=
  ⟨rfl, c1_expand_project_paths_amended "p" ⟨[⟨some "backend"⟩], []⟩
    ⟨[⟨some "content/code/p/backend"⟩], []⟩ rfl⟩


/-! ## Claim C8: template resolution -/

theorem bestFold_spec (tl : String) :
    ∀ (rest pre : List (String × StackTemplate)) (acc : Option String × Nat),
      ((acc = (none, 0) ∧ ∀ p ∈ pre, tplScore p.2 tl = 0) ∨
       (∃ l1 q l2, pre = l1 ++ q :: l2 ∧ acc.1 = some q.1 ∧
          acc.2 = tplScore q.2 tl ∧ 0 < tplScore q.2 tl ∧
          (∀ p ∈ pre, tplScore p.2 tl ≤ tplScore q.2 tl) ∧
          (∀ p ∈ l1, tplScore p.2 tl < tplScore q.2 tl))) →
      ((List.foldl
          (fun acc p =>
            let sc := tplScore p.2 tl
            if sc > acc.2 then (some p.1, sc) else acc) acc rest = (none, 0) ∧
        ∀ p ∈ pre ++ rest, tplScore p.2 tl = 0) ∨
       (∃ l1 q l2, pre ++ rest = l1 ++ q :: l2 ∧
          (List.foldl
            (fun acc p =>
              let sc := tplScore p.2 tl
              if sc > acc.2 then (some p.1, sc) else acc) acc rest).1 = some q.1 ∧
          (List.foldl
            (fun acc p =>
              let sc := tplScore p.2 tl
              if sc > acc.2 then (some p.1, sc) else acc) acc rest).2 = tplScore q.2 tl ∧
          0 < tplScore q.2 tl ∧
          (∀ p ∈ pre ++ rest, tplScore p.2 tl ≤ tplScore q.2 tl) ∧
          (∀ p ∈ l1, tplScore p.2 tl < tplScore q.2 tl))) := by
  intro rest
  induction rest with
  | nil =>
      intro pre acc hP
      simp only [List.foldl_nil, List.append_nil]
      rcases hP with ⟨h1, h2⟩ | ⟨l1, q, l2, hdec, ha1, ha2, hpos, hall, hlt⟩
      · exact Or.inl ⟨h1, h2⟩
      · exact Or.inr ⟨l1, q, l2, hdec, ha1, ha2, hpos, hall, hlt⟩
  | cons p rest ih =>
      intro pre acc hP
      simp only [List.foldl_cons]
      have hstep :
          ((if tplScore p.2 tl > acc.2 then (some p.1, tplScore p.2 tl) else acc)
              = (none, 0) ∧ ∀ x ∈ pre ++ [p], tplScore x.2 tl = 0) ∨
          (∃ l1 q l2, pre ++ [p] = l1 ++ q :: l2 ∧
            (if tplScore p.2 tl > acc.2 then (some p.1, tplScore p.2 tl) else acc).1
              = some q.1 ∧
            (if tplScore p.2 tl > acc.2 then (some p.1, tplScore p.2 tl) else acc).2
              = tplScore q.2 tl ∧
            0 < tplScore q.2 tl ∧
            (∀ x ∈ pre ++ [p], tplScore x.2 tl ≤ tplScore q.2 tl) ∧
            (∀ x ∈ l1, tplScore x.2 tl < tplScore q.2 tl)) := by
        by_cases hgt : tplScore p.2 tl > acc.2
        · right
          refine ⟨pre, p, [], by simp, by rw [if_pos hgt], by rw [if_pos hgt], ?_, ?_, ?_⟩
          · rcases hP with ⟨⟨rfl, _⟩, _⟩ | ⟨_, _, _, _, _, ha2, _, _, _⟩
            · simpa using hgt
            · omega
          · intro x hx
            rcases List.mem_append.mp hx with hx1 | hx2
            · rcases hP with ⟨⟨rfl, _⟩, hz⟩ | ⟨_, _, _, _, _, ha2, _, hall, _⟩
              · rw [hz x hx1]
                omega
              · have := hall x hx1
                omega
            · rw [List.mem_singleton.mp hx2]
          · intro x hx
            rcases hP with ⟨⟨rfl, _⟩, hz⟩ | ⟨_, _, _, _, _, ha2, _, hall, _⟩
            · rw [hz x hx]
              simpa using hgt
            · have := hall x hx
              omega
        · rw [if_neg hgt]
          rcases hP with ⟨⟨rfl, h0⟩, hz⟩ | ⟨l1, q, l2, hdec, ha1, ha2, hpos, hall, hlt⟩
        -- left: score p must be 0
          · left
            refine ⟨rfl, ?_⟩
            intro x hx
            rcases List.mem_append.mp hx with hx1 | hx2
            · exact hz x hx1
            · rw [List.mem_singleton.mp hx2]
              simp only [] at hgt
              omega
          · right
            refine ⟨l1, q, l2 ++ [p], ?_, ha1, ha2, hpos, ?_, hlt⟩
            · rw [hdec]
              simp
            · intro x hx
              rcases List.mem_append.mp hx with hx1 | hx2
              · exact hall x hx1
              · rw [List.mem_singleton.mp hx2]
                omega
      have hres := ih (pre ++ [p])
        (if tplScore p.2 tl > acc.2 then (some p.1, tplScore p.2 tl) else acc) hstep
      rw [List.append_assoc] at hres
      simpa using hres

theorem best_match_by_topic_spec (reg : List (String × StackTemplate)) (topic : String) :
    (∀ c, best_match_by_topic reg topic = some c →
       ∃ l1 q l2, reg = l1 ++ q :: l2 ∧ q.1 = c ∧
         0 < tplScore q.2 (pyLower topic) ∧
         (∀ p ∈ reg, tplScore p.2 (pyLower topic) ≤ tplScore q.2 (pyLower topic)) ∧
         (∀ p ∈ l1, tplScore p.2 (pyLower topic) < tplScore q.2 (pyLower topic))) ∧
    ((∀ p ∈ reg, tplScore p.2 (pyLower topic) = 0) →
       best_match_by_topic reg topic = none) := by
  have hspec := bestFold_spec (pyLower topic) reg [] ((none : Option String), 0)
    (Or.inl ⟨rfl, by intro p hp; cases hp⟩)
  simp only [List.nil_append] at hspec
  constructor
  · intro c hc
    unfold best_match_by_topic at hc
    rcases hspec with ⟨hfold, _⟩ | ⟨l1, q, l2, hdec, h1, _, hpos, hall, hlt⟩
    · rw [hfold] at hc
      cases hc
    · rw [h1] at hc
      exact ⟨l1, q, l2, hdec, Option.some.inj hc, hpos, hall, hlt⟩
  · intro hz
    unfold best_match_by_topic
    rcases hspec with ⟨hfold, _⟩ | ⟨l1, q, l2, hdec, h1, _, hpos, hall, hlt⟩
    · rw [hfold]
    · exfalso
      have hq : q ∈ reg := by
        rw [hdec]
        simp
      have := hz q hq
      omega

/-- C8 (amended): `load_or_autogen_template` uses the explicitly named
template when it is given and present; when a name is given but ABSENT it
falls straight through to autogeneration WITHOUT scoring (`chosen = name or
best_match…` short-circuits on a truthy name); only when no name is given
(or the empty string) is the registry scored — counting detection keywords
occurring case-insensitively as substrings of the topic, taking the entry
whose score strictly exceeds every earlier entry's and is at least every
later entry's (first-seen tie-break), with an all-zero scoring meaning no
match (autogeneration). -/
theorem c8_resolve_template_amended (reg : List (String × StackTemplate))
    (topic : String) (name : Option String) (hkeys : ∀ p ∈ reg, p.1 ≠ "") :
    (∀ n, name = some n → n ≠ "" → regHasKey reg n = true →
        resolve_template reg topic name = .existing n) ∧
    (∀ n, name = some n → n ≠ "" → regHasKey reg n = false →
        resolve_template reg topic name = .autogen) ∧
    ((name = none ∨ name = some "") →
        resolve_template reg topic name =
          (match best_match_by_topic reg topic with
           | some c => TplChoice.existing c
           | none => TplChoice.autogen)) ∧
    (∀ c, best_match_by_topic reg topic = some c →
       ∃ l1 q l2, reg = l1 ++ q :: l2 ∧ q.1 = c ∧
         0 < tplScore q.2 (pyLower topic) ∧
         (∀ p ∈ reg, tplScore p.2 (pyLower topic) ≤ tplScore q.2 (pyLower topic)) ∧
         (∀ p ∈ l1, tplScore p.2 (pyLower topic) < tplScore q.2 (pyLower topic))) ∧
    ((∀ p ∈ reg, tplScore p.2 (pyLower topic) = 0) →
       best_match_by_topic reg topic = none) := by
  obtain ⟨hbm1, hbm2⟩ := best_match_by_topic_spec reg topic
  refine ⟨?_, ?_, ?_, hbm1, hbm2⟩
  · intro n hn hne hkey
    subst hn
    unfold resolve_template
    simp only [if_neg (by simpa using hne)]
    rw [hkey]
    simp [hne]
  · intro n hn hne hkey
    subst hn
    unfold resolve_template
    simp only [if_neg (by simpa using hne)]
    rw [hkey]
    simp
  · intro hn
    rcases hn with rfl | rfl
    · unfold resolve_template
      cases hbm : best_match_by_topic reg topic with
      | some c =>
          obtain ⟨l1, q, l2, hdec, hqc, _, _, _⟩ := hbm1 c hbm
          have hcne : c ≠ "" := by
            rw [← hqc]
            exact hkeys q (by rw [hdec]; simp)
          have hkey : regHasKey reg c = true := by
            unfold regHasKey
            rw [List.any_eq_true]
            exact ⟨q, by rw [hdec]; simp, by simpa using hqc⟩
          simp [hbm, hcne, hkey]
      | none => simp [hbm]
    · unfold resolve_template
      simp only [if_pos rfl]
      cases hbm : best_match_by_topic reg topic with
      | some c =>
          obtain ⟨l1, q, l2, hdec, hqc, _, _, _⟩ := hbm1 c hbm
          have hcne : c ≠ "" := by
            rw [← hqc]
            exact hkeys q (by rw [hdec]; simp)
          have hkey : regHasKey reg c = true := by
            unfold regHasKey
            rw [List.any_eq_true]
            exact ⟨q, by rw [hdec]; simp, by simpa using hqc⟩
          simp [hcne, hkey]
      | none => simp

/-- C8 (counterexample to the claim as stated): with a registry holding a
template `flask` whose keyword `flask` occurs in the topic, an explicit but
ABSENT name (`missing`) makes resolution fall back to autogeneration even
though scoring would have matched `flask` — the claim's "otherwise score
every registered template" does not happen when an explicit name is given
but not present. -/
theorem c8_counterexample :
    resolve_template [("flask", ⟨["flask"]⟩)] "flask api" (some "missing") =
      TplChoice.autogen ∧
    best_match_by_topic [("flask", ⟨["flask"]⟩)] "flask api" = some "flask" := by
  constructor
  · rfl
  · rfl

theorem c8_witness :
    (∀ p ∈ [("flask", (⟨["flask"]⟩ : StackTemplate))], p.1 ≠ "") ∧
    (regHasKey [("flask", (⟨["flask"]⟩ : StackTemplate))] "flask" = true ∧
     resolve_template [("flask", (⟨["flask"]⟩ : StackTemplate))] "flask api"
       (some "flask") = TplChoice.existing "flask") :=
  ⟨(by intro p hp; rw [List.mem_singleton] at hp; subst hp; decide),
   ⟨by decide,
    (c8_resolve_template_amended [("flask", ⟨["flask"]⟩)] "flask api" (some "flask")
      (by intro p hp; rw [List.mem_singleton] at hp; subst hp; decide)).1
      "flask" rfl (by decide) (by decide)⟩⟩


/-! ## Claim C7: deep_merge -/

theorem any_key_eq_false_iff (es : List (String × Value)) (k : String) :
    es.any (fun p => p.1 = k) = false ↔ ∀ p ∈ es, p.1 ≠ k := by
  rw [List.any_eq_false]
  constructor
  · intro h p hp
    simpa using h p hp
  · intro h p hp
    simpa using h p hp

theorem dictFind_eq_of_mem (es : List (String × Value)) (k : String) (v : Value)
    (h : (k, v) ∈ es) (hnd : nodupKeys es = true) : dictFind es k = some v := by
  induction es with
  | nil => cases h
  | cons p rest ih =>
      obtain ⟨k0, v0⟩ := p
      simp only [nodupKeys, Bool.and_eq_true, Bool.not_eq_true'] at hnd
      obtain ⟨hnot, hnd'⟩ := hnd
      rcases List.mem_cons.mp h with heq | hmem
      · obtain ⟨rfl, rfl⟩ := Prod.mk.inj heq
        simp [dictFind]
      · have hne : k ≠ k0 := by
          intro hkk
          subst hkk
          have := (any_key_eq_false_iff rest k).mp hnot (k, v) hmem
          simp at this
        have hdec : (decide (k0 = k)) = false := decide_eq_false (fun hh => hne hh.symm)
        have hx := ih hmem hnd'
        simp only [dictFind, List.find?_cons, hdec] at hx ⊢
        exact hx

theorem map_set_id (k : String) (v : Value) :
    ∀ es : List (String × Value), (k, v) ∈ es → nodupKeys es = true →
      es.map (fun p => if p.1 = k then (k, v) else p) = es := by
  intro es
  induction es with
  | nil => intro h _; cases h
  | cons p rest ih =>
      intro h hnd
      obtain ⟨k0, v0⟩ := p
      simp only [nodupKeys, Bool.and_eq_true, Bool.not_eq_true'] at hnd
      obtain ⟨hnot, hnd'⟩ := hnd
      by_cases hk : k0 = k
      · have hhead : (k0, v0) = (k, v) := by
          rcases List.mem_cons.mp h with heq | hmem
          · exact heq.symm
          · exfalso
            have hx := (any_key_eq_false_iff rest k0).mp hnot (k, v) hmem
            simp [hk] at hx
        obtain ⟨rfl, rfl⟩ := Prod.mk.inj hhead
        have hrest : rest.map (fun p => if p.1 = k0 then (k0, v0) else p) = rest := by
          have hcongr : rest.map (fun p => if p.1 = k0 then (k0, v0) else p) =
              rest.map id := List.map_congr_left (by
                intro p hp
                have hne := (any_key_eq_false_iff rest k0).mp hnot p hp
                simp [hne])
          rw [hcongr, List.map_id]
        simp [hrest]
      · have hmem : (k, v) ∈ rest := by
          rcases List.mem_cons.mp h with heq | hmem
          · exact absurd (Prod.mk.inj heq).1.symm hk
          · exact hmem
        simp only [List.map_cons]
        rw [if_neg (by simpa using hk), ih hmem hnd']

theorem dictSet_self (es : List (String × Value)) (k : String) (v : Value)
    (h : (k, v) ∈ es) (hnd : nodupKeys es = true) : dictSet es k v = es := by
  unfold dictSet
  rw [if_pos ?hany]
  · exact map_set_id k v es h hnd
  · rw [List.any_eq_true]
    exact ⟨(k, v), h, by simp⟩

theorem wfEntries_mem :
    ∀ es : List (String × Value), wfEntries es = true →
      ∀ k v, (k, v) ∈ es → wfValue v = true := by
  intro es
  induction es with
  | nil => intro _ k v h; cases h
  | cons p rest ih =>
      intro hwe k v h
      obtain ⟨k0, v0⟩ := p
      simp only [wfEntries, Bool.and_eq_true] at hwe
      rcases List.mem_cons.mp h with heq | hmem
      · rw [(Prod.mk.inj heq).2]
        exact hwe.1
      · exact ih hwe.2 k v hmem

theorem mergeEntries_self_aux (es : List (String × Value)) (hnd : nodupKeys es = true)
    (hself : ∀ k v, (k, v) ∈ es → deep_merge v v = v) :
    ∀ pending, (∀ p ∈ pending, p ∈ es) → mergeEntries es pending = es := by
  intro pending
  induction pending with
  | nil => intro _; rw [mergeEntries]
  | cons p pending ih =>
      intro hsub
      obtain ⟨k, v⟩ := p
      have hmem : (k, v) ∈ es := hsub (k, v) (by simp)
      have hfind : dictFind es k = some v := dictFind_eq_of_mem es k v hmem hnd
      have hget : dictGetD es k = v := by rw [dictGetD, hfind]; rfl
      rw [mergeEntries, hget, hself k v hmem, dictSet_self es k v hmem hnd]
      exact ih (fun q hq => hsub q (by simp [hq]))

theorem deep_merge_self_bounded :
    ∀ n, ∀ a, sizeOf a ≤ n → wfValue a = true → deep_merge a a = a := by
  intro n
  induction n using Nat.strong_induction_on with
  | _ n ih =>
      intro a ha hw
      cases a with
      | vdict es =>
          simp only [wfValue, Bool.and_eq_true] at hw
          obtain ⟨hnd, hwe⟩ := hw
          have hself : ∀ k v, (k, v) ∈ es → deep_merge v v = v := by
            intro k v hv
            have hsz : sizeOf (k, v) < sizeOf es := List.sizeOf_lt_of_mem hv
            have hsz2 : sizeOf v < sizeOf (Value.vdict es) := by
              simp only [Prod.mk.sizeOf_spec, Value.vdict.sizeOf_spec] at hsz ⊢
              omega
            exact ih (sizeOf v) (by omega) v le_rfl (wfEntries_mem es hwe k v hv)
          rw [deep_merge, mergeEntries_self_aux es hnd hself es (fun q hq => hq)]
      | vnull => simp [deep_merge]
      | vbool b => simp [deep_merge]
      | vint i => simp [deep_merge]
      | vstr s => simp [deep_merge]
      | vlist xs => simp [deep_merge]


theorem find_map_set (k : String) (v : Value) :
    ∀ es : List (String × Value), es.any (fun p => p.1 = k) = true →
      dictFind (es.map (fun p => if p.1 = k then (k, v) else p)) k = some v := by
  intro es
  induction es with
  | nil => intro h; cases h
  | cons p rest ih =>
      intro hany
      obtain ⟨k0, v0⟩ := p
      by_cases hk : k0 = k
      · simp [dictFind, hk]
      · have hrest : rest.any (fun p => p.1 = k) = true := by
          simp only [List.any_cons] at hany
          rcases Bool.or_eq_true _ _ |>.mp hany with h1 | h2
          · exact absurd (of_decide_eq_true h1) hk
          · exact h2
        have hx := ih hrest
        have hdec : (decide (k0 = k)) = false := decide_eq_false hk
        simp only [List.map_cons, if_neg (by simpa using hk), dictFind,
          List.find?_cons, hdec] at hx ⊢
        exact hx

theorem find_append_single (k : String) (v : Value) :
    ∀ es : List (String × Value), es.any (fun p => p.1 = k) = false →
      dictFind (es ++ [(k, v)]) k = some v := by
  intro es
  induction es with
  | nil => intro _; simp [dictFind]
  | cons p rest ih =>
      intro hany
      obtain ⟨k0, v0⟩ := p
      simp only [List.any_cons, Bool.or_eq_false_iff] at hany
      have hk : ¬(k0 = k) := by simpa using hany.1
      have hx := ih hany.2
      have hdec : (decide (k0 = k)) = false := decide_eq_false hk
      simp only [List.cons_append, dictFind, List.find?_cons, hdec] at hx ⊢
      exact hx

theorem dictFind_dictSet_self (es : List (String × Value)) (k : String) (v : Value) :
    dictFind (dictSet es k v) k = some v := by
  unfold dictSet
  by_cases hany : es.any (fun p => p.1 = k) = true
  · rw [if_pos hany]
    exact find_map_set k v es hany
  · rw [if_neg hany]
    exact find_append_single k v es (Bool.eq_false_iff.mpr hany)

theorem find_append_single_ne (k k' : String) (v : Value) (h : k' ≠ k) :
    ∀ es : List (String × Value), dictFind (es ++ [(k', v)]) k = dictFind es k := by
  intro es
  induction es with
  | nil => simp [dictFind, decide_eq_false h]
  | cons p rest ih =>
      obtain ⟨k0, v0⟩ := p
      simp only [List.cons_append, dictFind, List.find?_cons] at ih ⊢
      cases hdk : decide (k0 = k) with
      | true => rfl
      | false => simpa [hdk] using ih

theorem find_map_set_ne (k k' : String) (v : Value) (h : k' ≠ k) :
    ∀ l : List (String × Value),
      dictFind (l.map (fun p => if p.1 = k' then (k', v) else p)) k = dictFind l k := by
  intro l
  induction l with
  | nil => rfl
  | cons p rest ih =>
      obtain ⟨k0, v0⟩ := p
      by_cases hk0 : k0 = k'
      · subst hk0
        have hdec : (decide (k0 = k)) = false := decide_eq_false h
        simpa [dictFind, List.find?_cons, hdec] using ih
      · simp only [List.map_cons, if_neg (by simpa using hk0), dictFind,
          List.find?_cons] at ih ⊢
        cases hdk : decide (k0 = k) with
        | true => rfl
        | false => simpa [hdk] using ih

theorem dictFind_dictSet_ne (es : List (String × Value)) (k k' : String) (v : Value)
    (h : k' ≠ k) : dictFind (dictSet es k' v) k = dictFind es k := by
  unfold dictSet
  by_cases hany : es.any (fun p => p.1 = k') = true
  · rw [if_pos hany]
    exact find_map_set_ne k k' v h es
  · rw [if_neg hany]
    exact find_append_single_ne k k' v h es


theorem mergeEntries_find_not_mem (k : String) :
    ∀ (bes out : List (String × Value)), (∀ p ∈ bes, p.1 ≠ k) →
      dictFind (mergeEntries out bes) k = dictFind out k := by
  intro bes
  induction bes with
  | nil => intro out _; rw [mergeEntries]
  | cons p rest ih =>
      intro out hne
      obtain ⟨k0, v0⟩ := p
      rw [mergeEntries]
      rw [ih _ (fun q hq => hne q (by simp [hq]))]
      exact dictFind_dictSet_ne out k k0 _ (hne (k0, v0) (by simp))

theorem mergeEntries_find_mem (k : String) (vb : Value) :
    ∀ (bes out : List (String × Value)), nodupKeys bes = true → (k, vb) ∈ bes →
      dictFind (mergeEntries out bes) k = some (deep_merge (dictGetD out k) vb) := by
  intro bes
  induction bes with
  | nil => intro out _ h; cases h
  | cons p rest ih =>
      intro out hnd hmem
      obtain ⟨k0, v0⟩ := p
      simp only [nodupKeys, Bool.and_eq_true, Bool.not_eq_true'] at hnd
      obtain ⟨hnot, hnd'⟩ := hnd
      by_cases hk : k0 = k
      · have hhead : (k0, v0) = (k, vb) := by
          rcases List.mem_cons.mp hmem with heq | hmem'
          · exact heq.symm
          · exfalso
            have hx := (any_key_eq_false_iff rest k0).mp hnot (k, vb) hmem'
            simp [hk] at hx
        obtain ⟨rfl, rfl⟩ := Prod.mk.inj hhead
        rw [mergeEntries]
        rw [mergeEntries_find_not_mem k0 rest _
          (fun q hq => (any_key_eq_false_iff rest k0).mp hnot q hq)]
        exact dictFind_dictSet_self out k0 _
      · have hmem' : (k, vb) ∈ rest := by
          rcases List.mem_cons.mp hmem with heq | hm
          · exact absurd (Prod.mk.inj heq).1.symm hk
          · exact hm
        rw [mergeEntries]
        rw [ih _ hnd' hmem']
        have hget : dictGetD (dictSet out k0 (deep_merge (dictGetD out k0) v0)) k =
            dictGetD out k := by
          unfold dictGetD
          rw [dictFind_dictSet_ne out k k0 _ hk]
        rw [hget]

theorem deep_merge_not_dict (a b : Value)
    (h : a.isDict = false ∨ b.isDict = false) : deep_merge a b = b := by
  cases a <;> cases b <;>
    first
      | (simp only [Value.isDict] at h
         rcases h with h | h <;> exact absurd h (by decide))
      | (simp [deep_merge])

/-- C7: `deep_merge` maps every key present in both dicts to the recursive
merge of the two values; whenever either side is not a dict, `b` wins
wholesale (lists and scalars replace, never concatenate — `copy.deepcopy(b)`
is the identity on pure values); and `deep_merge` is idempotent on
well-formed (Python-producible, duplicate-free) values. -/
theorem c7_deep_merge_spec (a b : Value)
    (hwa : wfValue a = true) (hwb : wfValue b = true) :
    (∀ aes bes k va vb, a = .vdict aes → b = .vdict bes →
        (k, va) ∈ aes → (k, vb) ∈ bes →
        deep_merge a b = .vdict (mergeEntries aes bes) ∧
        dictFind (mergeEntries aes bes) k = some (deep_merge va vb)) ∧
    (a.isDict = false ∨ b.isDict = false → deep_merge a b = b) ∧
    deep_merge a a = a := by
  refine ⟨?_, deep_merge_not_dict a b, deep_merge_self_bounded (sizeOf a) a le_rfl hwa⟩
  intro aes bes k va vb ha hb hva hvb
  subst ha
  subst hb
  simp only [wfValue, Bool.and_eq_true] at hwa hwb
  refine ⟨by rw [deep_merge], ?_⟩
  rw [mergeEntries_find_mem k vb bes aes hwb.1 hvb]
  have hget : dictGetD aes k = va := by
    rw [dictGetD, dictFind_eq_of_mem aes k va hva hwa.1]
    rfl
  rw [hget]

theorem c7_witness :
    wfValue (Value.vdict [("x", Value.vint 1), ("y", Value.vstr "s")]) = true ∧
    wfValue (Value.vdict [("x", Value.vint 2)]) = true ∧
    ((∀ aes bes k va vb,
        Value.vdict [("x", Value.vint 1), ("y", Value.vstr "s")] = .vdict aes →
        Value.vdict [("x", Value.vint 2)] = .vdict bes →
        (k, va) ∈ aes → (k, vb) ∈ bes →
        deep_merge (Value.vdict [("x", Value.vint 1), ("y", Value.vstr "s")])
            (Value.vdict [("x", Value.vint 2)]) = .vdict (mergeEntries aes bes) ∧
        dictFind (mergeEntries aes bes) k = some (deep_merge va vb)) ∧
      ((Value.vdict [("x", Value.vint 1), ("y", Value.vstr "s")]).isDict = false ∨
        (Value.vdict [("x", Value.vint 2)]).isDict = false →
          deep_merge (Value.vdict [("x", Value.vint 1), ("y", Value.vstr "s")])
            (Value.vdict [("x", Value.vint 2)]) = Value.vdict [("x", Value.vint 2)]) ∧
      deep_merge (Value.vdict [("x", Value.vint 1), ("y", Value.vstr "s")])
          (Value.vdict [("x", Value.vint 1), ("y", Value.vstr "s")]) =
        Value.vdict [("x", Value.vint 1), ("y", Value.vstr "s")]) :=
  ⟨by decide, by decide,
   c7_deep_merge_spec
     (Value.vdict [("x", Value.vint 1), ("y", Value.vstr "s")])
     (Value.vdict [("x", Value.vint 2)]) (by decide) (by decide)⟩


/-! ## Claim C9: merge_named_list -/

theorem applyNamedOverrides_length (baseList : List Value) :
    ∀ (om : List (String × Value)) (out : List Value),
      (applyNamedOverrides baseList om out).length = out.length := by
  intro om
  induction om with
  | nil => intro out; rfl
  | cons p om ih =>
      intro out
      unfold applyNamedOverrides at ih ⊢
      simp only [List.foldl_cons]
      cases hix : idxOf baseList p.1 with
      | some i =>
          simp only [hix]
          rw [ih (out.set i (deep_merge (out.getD i .vnull) p.2))]
          exact List.length_set ..
      | none =>
          simp only [hix]
          exact ih out

/-- C9 (amended): the output of `merge_named_list` is the patched base list —
same length as the base, every name-matched patch applied in place — with the
entries carrying a truthy `disabled` flag dropped, followed by the add-list
entries in their given order, also with truthy-`disabled` entries dropped; no
entry of the output carries a truthy `disabled` flag.  (The claim's "appends
ALL add-list entries" fails for a disabled add entry, which the final filter
removes.) -/
theorem c9_merge_named_list_amended (baseList : List Value)
    (overrideMap : List (String × Value)) (addList : List Value) :
    (applyNamedOverrides baseList overrideMap baseList).length = baseList.length ∧
    merge_named_list baseList overrideMap addList =
      (applyNamedOverrides baseList overrideMap baseList).filter
        (fun x => !pyTruthy (pyGet x "disabled")) ++
      addList.filter (fun x => !pyTruthy (pyGet x "disabled")) ∧
    ∀ i : Nat, i < (merge_named_list baseList overrideMap addList).length →
      pyTruthy (pyGet ((merge_named_list baseList overrideMap addList).getD i .vnull)
        "disabled") = false := by
  have heq : merge_named_list baseList overrideMap addList =
      (applyNamedOverrides baseList overrideMap baseList).filter
        (fun x => !pyTruthy (pyGet x "disabled")) ++
      addList.filter (fun x => !pyTruthy (pyGet x "disabled")) := by
    unfold merge_named_list
    exact List.filter_append ..
  refine ⟨applyNamedOverrides_length baseList overrideMap baseList, heq, ?_⟩
  intro i hi
  have hx : (merge_named_list baseList overrideMap addList).getD i .vnull ∈
      merge_named_list baseList overrideMap addList := by
    rw [List.getD_eq_getElem _ _ hi]
    exact List.getElem_mem hi
  generalize hgen : (merge_named_list baseList overrideMap addList).getD i .vnull = e at hx ⊢
  rw [heq] at hx
  rcases List.mem_append.mp hx with hm | hm <;>
    simpa using (List.mem_filter.mp hm).2

/-- C9 (counterexample to the claim as stated): an add-list entry carrying
`disabled: true` does NOT appear in the output — `merge_named_list` filters
truthy-`disabled` entries out after appending, so "appends all add-list
entries after every base entry" is false for it. -/
theorem c9_counterexample :
    merge_named_list [] [] [Value.vdict [("disabled", Value.vbool true)]] = [] ∧
    pyTruthy (pyGet (Value.vdict [("disabled", Value.vbool true)]) "disabled") = true := by
  exact ⟨rfl, rfl⟩


theorem c9_witness :
    (0 : Nat) < (merge_named_list [Value.vdict [("name", Value.vstr "a")]] [] []).length ∧
    pyTruthy (pyGet ((merge_named_list [Value.vdict [("name", Value.vstr "a")]] [] []).getD 0
      Value.vnull) "disabled") = false :=
  ⟨by decide,
   (c9_merge_named_list_amended [Value.vdict [("name", Value.vstr "a")]] [] []).2.2 0
     (by decide)⟩

/-! ## C6: `resolve_vars` -- token substitution, lookup order, and the no-op
property on token-free values.  The scanner lemmas below characterise the three
arms of `substChars` (a regex match, a failed match at a dollar-brace, and an
ordinary character) and of `hasTokChars`, then `substChars_token` settles one
full substitution step and `substChars_noop` the token-free case. -/

theorem takeWhile_append_stop {q : Char → Bool} {y : Char} (hy : q y = false) :
    ∀ (xs ys : List Char), ((xs ++ y :: ys).takeWhile q) = xs.takeWhile q := by
  intro xs ys
  induction xs with
  | nil => simp [List.takeWhile_cons, hy]
  | cons x xs ih =>
      simp only [List.cons_append, List.takeWhile_cons, ih]

theorem dropWhile_append_stop {q : Char → Bool} {y : Char} (hy : q y = false) :
    ∀ (xs ys : List Char), ((xs ++ y :: ys).dropWhile q) = xs.dropWhile q ++ y :: ys := by
  intro xs ys
  induction xs with
  | nil => simp [List.dropWhile_cons, hy]
  | cons x xs ih =>
      simp only [List.cons_append, List.dropWhile_cons, ih]
      cases q x <;> simp [ih]

theorem substChars_match_arm (lk : String → Option String) (rest : List Char)
    (nm : Char) (nms tail : List Char)
    (htake : rest.takeWhile isVarChar = nm :: nms)
    (hdrop : rest.dropWhile isVarChar = '}' :: tail) :
    substChars lk ('$' :: '{' :: rest) =
      (match lk (String.mk (nm :: nms)) with
       | some v => v.data
       | none => '$' :: '{' :: ((nm :: nms) ++ ['}'])) ++ substChars lk tail := by
  rw [substChars]
  split
  · rename_i nm' nms' tail' htake' hdrop'
    rw [htake] at htake'
    rw [hdrop] at hdrop'
    obtain ⟨rfl, rfl⟩ := List.cons.inj htake'
    obtain rfl := (List.cons.inj hdrop').2
    rfl
  · rename_i hno
    exact (hno nm nms tail htake hdrop).elim

theorem substChars_nomatch_arm (lk : String → Option String) (rest : List Char)
    (h : rest.takeWhile isVarChar = [] ∨ ∀ tail, rest.dropWhile isVarChar ≠ '}' :: tail) :
    substChars lk ('$' :: '{' :: rest) = '$' :: substChars lk ('{' :: rest) := by
  rw [substChars]
  split
  · rename_i nm' nms' tail' htake' hdrop'
    rcases h with h1 | h2
    · rw [h1] at htake'
      cases htake'
    · exact absurd hdrop' (h2 tail')
  · rfl

theorem substChars_step (lk : String → Option String) (c : Char) (cs : List Char)
    (h : c ≠ '$' ∨ ∀ r, cs ≠ '{' :: r) :
    substChars lk (c :: cs) = c :: substChars lk cs := by
  rw [substChars.eq_def]
  split
  · rename_i heq
    exact absurd heq (by simp)
  · rename_i rest heq
    obtain ⟨rfl, rfl⟩ := List.cons.inj heq
    rcases h with h1 | h2
    · exact absurd rfl h1
    · exact absurd rfl (h2 rest)
  · rename_i c' cs' hne heq
    obtain ⟨rfl, rfl⟩ := List.cons.inj heq
    rfl

theorem hasTok_match_arm (rest : List Char)
    (nm : Char) (nms tail : List Char)
    (htake : rest.takeWhile isVarChar = nm :: nms)
    (hdrop : rest.dropWhile isVarChar = '}' :: tail) :
    hasTokChars ('$' :: '{' :: rest) = true := by
  rw [hasTokChars]
  split
  · rfl
  · rename_i hno
    exact (hno nm nms tail htake hdrop).elim

theorem hasTok_nomatch_arm (rest : List Char)
    (h : rest.takeWhile isVarChar = [] ∨ ∀ tail, rest.dropWhile isVarChar ≠ '}' :: tail) :
    hasTokChars ('$' :: '{' :: rest) = hasTokChars ('{' :: rest) := by
  rw [hasTokChars]
  split
  · rename_i nm' nms' tail' htake' hdrop'
    rcases h with h1 | h2
    · rw [h1] at htake'
      cases htake'
    · exact absurd hdrop' (h2 tail')
  · rfl

theorem hasTok_step (c : Char) (cs : List Char)
    (h : c ≠ '$' ∨ ∀ r, cs ≠ '{' :: r) :
    hasTokChars (c :: cs) = hasTokChars cs := by
  rw [hasTokChars.eq_def]
  split
  · rename_i heq
    exact absurd heq (by simp)
  · rename_i rest heq
    obtain ⟨rfl, rfl⟩ := List.cons.inj heq
    rcases h with h1 | h2
    · exact absurd rfl h1
    · exact absurd rfl (h2 rest)
  · rename_i c' cs' hne heq
    obtain ⟨rfl, rfl⟩ := List.cons.inj heq
    rfl

theorem hasTok_false_nomatch (rest : List Char)
    (h : hasTokChars ('$' :: '{' :: rest) = false) :
    rest.takeWhile isVarChar = [] ∨ ∀ tail, rest.dropWhile isVarChar ≠ '}' :: tail := by
  by_cases h1 : rest.takeWhile isVarChar = []
  · exact Or.inl h1
  · right
    intro tail htail
    cases htake : rest.takeWhile isVarChar with
    | nil => exact h1 htake
    | cons nm nms =>
        rw [hasTok_match_arm rest nm nms tail htake htail] at h
        cases h

theorem substChars_token0 (lk : String → Option String)
    (name rest : List Char) (hname : name ≠ [])
    (hvar : ∀ c ∈ name, isVarChar c = true) :
    substChars lk ('$' :: '{' :: (name ++ '}' :: rest)) =
      (match lk (String.mk name) with
       | some v => v.data
       | none => '$' :: '{' :: (name ++ ['}'])) ++ substChars lk rest := by
  have hvc : isVarChar '}' = false := by decide
  have htake : (name ++ '}' :: rest).takeWhile isVarChar = name := by
    rw [takeWhile_append_stop hvc]
    exact List.takeWhile_eq_self_iff.mpr hvar
  have hdrop : (name ++ '}' :: rest).dropWhile isVarChar = '}' :: rest := by
    rw [dropWhile_append_stop hvc]
    rw [List.dropWhile_eq_nil_iff.mpr hvar]
    rfl
  cases name with
  | nil => exact absurd rfl hname
  | cons nm nms =>
      exact substChars_match_arm lk ((nm :: nms) ++ '}' :: rest) nm nms rest htake hdrop

theorem substChars_token (lk : String → Option String)
    (name rest : List Char) (hname : name ≠ [])
    (hvar : ∀ c ∈ name, isVarChar c = true) :
    ∀ (n : Nat) (p : List Char), p.length ≤ n → hasTokChars p = false →
      substChars lk (p ++ '$' :: '{' :: (name ++ '}' :: rest)) =
        p ++ ((match lk (String.mk name) with
               | some v => v.data
               | none => '$' :: '{' :: (name ++ ['}'])) ++ substChars lk rest) := by
  intro n
  induction n with
  | zero =>
      intro p hlen _
      have hp : p = [] := List.eq_nil_of_length_eq_zero (Nat.le_zero.mp hlen)
      subst hp
      simpa using substChars_token0 lk name rest hname hvar
  | succ n ih =>
      intro p hlen hp
      cases p with
      | nil => simpa using substChars_token0 lk name rest hname hvar
      | cons c p' =>
          simp only [List.length_cons] at hlen
          by_cases hc : c = '$'
          · subst hc
            cases p' with
            | nil =>
                have hstep : substChars lk ('$' :: ([] ++ '$' :: '{' :: (name ++ '}' :: rest))) =
                    '$' :: substChars lk ([] ++ '$' :: '{' :: (name ++ '}' :: rest)) := by
                  apply substChars_step
                  right
                  intro r hr
                  cases hr
                simp only [List.cons_append, List.nil_append] at hstep ⊢
                rw [hstep, substChars_token0 lk name rest hname hvar]
            | cons c2 p'' =>
                by_cases hc2 : c2 = '{'
                · subst hc2
                  -- p = '$' :: '{' :: p''
                  have hvd : isVarChar '$' = false := by decide
                  have hnom : (p'' ++ '$' :: '{' :: (name ++ '}' :: rest)).takeWhile isVarChar = [] ∨
                      ∀ tail, (p'' ++ '$' :: '{' :: (name ++ '}' :: rest)).dropWhile isVarChar ≠ '}' :: tail := by
                    have htk := takeWhile_append_stop hvd p'' ('{' :: (name ++ '}' :: rest))
                    have hdp := dropWhile_append_stop hvd p'' ('{' :: (name ++ '}' :: rest))
                    cases htake2 : p''.takeWhile isVarChar with
                    | nil =>
                        left
                        rw [htk, htake2]
                    | cons d ds =>
                        right
                        intro tail htail
                        rw [hdp] at htail
                        cases hdrop2 : p''.dropWhile isVarChar with
                        | nil =>
                            rw [hdrop2] at htail
                            simp at htail
                        | cons e es =>
                            rw [hdrop2] at htail
                            simp only [List.cons_append, List.cons.injEq] at htail
                            -- e = '}' gives a token in p, contradiction
                            have : hasTokChars ('$' :: '{' :: p'') = true :=
                              hasTok_match_arm p'' d ds es htake2 (by rw [hdrop2, htail.1])
                            rw [this] at hp
                            cases hp
                  have hnom' : (p'' ).takeWhile isVarChar = p''.takeWhile isVarChar := rfl
                  have hsub := substChars_nomatch_arm lk (p'' ++ '$' :: '{' :: (name ++ '}' :: rest)) hnom
                  -- hasTok of p reduces to hasTok of '{' :: p''
                  have hpnom : p''.takeWhile isVarChar = [] ∨
                      ∀ tail, p''.dropWhile isVarChar ≠ '}' :: tail :=
                    hasTok_false_nomatch p'' hp
                  have hp2 : hasTokChars ('{' :: p'') = false := by
                    rw [← hasTok_nomatch_arm p'' hpnom]
                    exact hp
                  have hlen2 : ('{' :: p'').length ≤ n := by
                    simp only [List.length_cons] at hlen ⊢
                    omega
                  have hih := ih ('{' :: p'') hlen2 hp2
                  simp only [List.cons_append] at hih ⊢
                  rw [hsub, hih]
                · -- '$' followed by a non-brace character
                  have hstep := substChars_step lk '$' ((c2 :: p'') ++ '$' :: '{' :: (name ++ '}' :: rest))
                    (Or.inr (fun r hr => hc2 (List.cons.inj hr).1))
                  have hpt : hasTokChars (c2 :: p'') = false := by
                    rw [← hasTok_step '$' (c2 :: p'') (Or.inr (fun r hr => hc2 (List.cons.inj hr).1))]
                    exact hp
                  have hih := ih (c2 :: p'') (by simp only [List.length_cons] at hlen ⊢; omega) hpt
                  simp only [List.cons_append] at hstep hih ⊢
                  rw [hstep, hih]
          · -- ordinary character
            have hstep := substChars_step lk c (p' ++ '$' :: '{' :: (name ++ '}' :: rest))
              (Or.inl hc)
            have hpt : hasTokChars p' = false := by
              rw [← hasTok_step c p' (Or.inl hc)]
              exact hp
            have hih := ih p' (by omega) hpt
            simp only [List.cons_append] at hstep ⊢
            rw [hstep, hih]

theorem substChars_noop (lk : String → Option String) :
    ∀ (n : Nat) (l : List Char), l.length ≤ n → hasTokChars l = false →
      substChars lk l = l := by
  intro n
  induction n with
  | zero =>
      intro l hlen _
      have h0 : l = [] := List.eq_nil_of_length_eq_zero (Nat.le_zero.mp hlen)
      subst h0
      rw [substChars]
  | succ n ih =>
      intro l hlen hl
      cases l with
      | nil => rw [substChars]
      | cons c cs =>
          simp only [List.length_cons] at hlen
          by_cases hc : c = '$'
          · subst hc
            cases cs with
            | nil =>
                rw [substChars_step lk '$' [] (Or.inr (fun r hr => by cases hr))]
                rw [substChars]
            | cons c2 p'' =>
                by_cases hc2 : c2 = '{'
                · subst hc2
                  have hpnom := hasTok_false_nomatch p'' hl
                  rw [substChars_nomatch_arm lk p'' hpnom]
                  have hl2 : hasTokChars ('{' :: p'') = false := by
                    rw [← hasTok_nomatch_arm p'' hpnom]
                    exact hl
                  rw [ih ('{' :: p'') (by simp only [List.length_cons] at hlen ⊢; omega) hl2]
                · have hcond : ('$' : Char) ≠ '$' ∨ ∀ r, (c2 :: p'') ≠ '{' :: r :=
                    Or.inr (fun r hr => hc2 (List.cons.inj hr).1)
                  rw [substChars_step lk '$' (c2 :: p'') hcond]
                  have hl2 : hasTokChars (c2 :: p'') = false := by
                    rw [← hasTok_step '$' (c2 :: p'') hcond]
                    exact hl
                  rw [ih (c2 :: p'') (by omega) hl2]
          · rw [substChars_step lk c cs (Or.inl hc)]
            have hl2 : hasTokChars cs = false := by
              rw [← hasTok_step c cs (Or.inl hc)]
              exact hl
            rw [ih cs (by omega) hl2]

theorem entriesHasTok_false_mem :
    ∀ (es : List (String × Value)), entriesHasTok es = false →
      ∀ kv ∈ es, valueHasTok kv.2 = false := by
  intro es
  induction es with
  | nil =>
      intro _ kv hkv
      cases hkv
  | cons e es ih =>
      obtain ⟨k, v⟩ := e
      intro h kv hkv
      simp only [entriesHasTok, Bool.or_eq_false_iff] at h
      rcases List.mem_cons.mp hkv with rfl | hmem
      · exact h.1
      · exact ih h.2 kv hmem

theorem listHasTok_false_mem :
    ∀ (xs : List Value), listHasTok xs = false →
      ∀ x ∈ xs, valueHasTok x = false := by
  intro xs
  induction xs with
  | nil =>
      intro _ x hx
      cases hx
  | cons y ys ih =>
      intro h x hx
      simp only [listHasTok, Bool.or_eq_false_iff] at h
      rcases List.mem_cons.mp hx with rfl | hmem
      · exact h.1
      · exact ih h.2 x hmem

theorem resolveEntries_congr_id (vm em : List (String × String)) :
    ∀ (es : List (String × Value)),
      (∀ kv ∈ es, resolve_vars vm em kv.2 = kv.2) → resolveEntries vm em es = es := by
  intro es
  induction es with
  | nil =>
      intro _
      rfl
  | cons e es ih =>
      obtain ⟨k, v⟩ := e
      intro h
      simp only [resolveEntries]
      rw [h (k, v) (List.mem_cons_self _ _), ih (fun kv hkv => h kv (List.mem_cons_of_mem _ hkv))]

theorem resolveList_congr_id (vm em : List (String × String)) :
    ∀ (xs : List Value),
      (∀ x ∈ xs, resolve_vars vm em x = x) → resolveList vm em xs = xs := by
  intro xs
  induction xs with
  | nil =>
      intro _
      rfl
  | cons y ys ih =>
      intro h
      simp only [resolveList]
      rw [h y (List.mem_cons_self _ _), ih (fun x hx => h x (List.mem_cons_of_mem _ hx))]

theorem resolve_vars_noop_bounded (vm em : List (String × String)) :
    ∀ (n : Nat) (v : Value), sizeOf v ≤ n → valueHasTok v = false →
      resolve_vars vm em v = v := by
  intro n
  induction n with
  | zero =>
      intro v hv _
      cases v <;> simp at hv <;> omega
  | succ n ih =>
      intro v hv htok
      cases v with
      | vdict es =>
          simp only [resolve_vars]
          rw [resolveEntries_congr_id vm em es]
          intro kv hkv
          obtain ⟨k, w⟩ := kv
          have h1 := List.sizeOf_lt_of_mem hkv
          simp only [Prod.mk.sizeOf_spec] at h1
          simp only [Value.vdict.sizeOf_spec] at hv
          exact ih w (by omega) (entriesHasTok_false_mem es (by simpa [valueHasTok] using htok) (k, w) hkv)
      | vlist xs =>
          simp only [resolve_vars]
          rw [resolveList_congr_id vm em xs]
          intro x hx
          have h1 := List.sizeOf_lt_of_mem hx
          simp only [Value.vlist.sizeOf_spec] at hv
          exact ih x (by omega) (listHasTok_false_mem xs (by simpa [valueHasTok] using htok) x hx)
      | vstr s =>
          simp only [resolve_vars, substStr]
          have hl : hasTokChars s.data = false := by simpa [valueHasTok] using htok
          rw [substChars_noop (lookupVar vm em) s.data.length s.data le_rfl hl]
      | vnull => rfl
      | vbool b => rfl
      | vint i => rfl

/-- C6: for every value, resolve_vars substitutes each token of the shape
dollar-brace-NAME-brace occurring in any string by looking NAME up first in the
combined vars map (conjunct 1), then in the process environment (conjunct 2),
and leaves the token verbatim, never raising, when neither defines it
(conjunct 3: the function is total and emits the token unchanged); and on any
value containing no such token, resolve_vars returns the input unchanged
(conjunct 4). -/
theorem c6_resolve_vars_spec
    (vm em : List (String × String)) (p name rest : List Char)
    (hp : hasTokChars p = false) (hname : name ≠ [])
    (hvar : ∀ c ∈ name, isVarChar c = true) :
    (∀ pr : String × String, vm.find? (fun q => q.1 = String.mk name) = some pr →
        resolve_vars vm em (.vstr (String.mk (p ++ '$' :: '{' :: (name ++ '}' :: rest)))) =
          .vstr (String.mk (p ++ (pr.2.data ++ substChars (lookupVar vm em) rest)))) ∧
    (∀ pr : String × String, vm.find? (fun q => q.1 = String.mk name) = none →
        em.find? (fun q => q.1 = String.mk name) = some pr →
        resolve_vars vm em (.vstr (String.mk (p ++ '$' :: '{' :: (name ++ '}' :: rest)))) =
          .vstr (String.mk (p ++ (pr.2.data ++ substChars (lookupVar vm em) rest)))) ∧
    (vm.find? (fun q => q.1 = String.mk name) = none →
        em.find? (fun q => q.1 = String.mk name) = none →
        resolve_vars vm em (.vstr (String.mk (p ++ '$' :: '{' :: (name ++ '}' :: rest)))) =
          .vstr (String.mk (p ++ (('$' :: '{' :: (name ++ ['}'])) ++ substChars (lookupVar vm em) rest)))) ∧
    (∀ v : Value, valueHasTok v = false → resolve_vars vm em v = v) := by
  have htok := substChars_token (lookupVar vm em) name rest hname hvar p.length p le_rfl hp
  refine ⟨?_, ?_, ?_, ?_⟩
  · intro pr hfind
    have hlk : lookupVar vm em (String.mk name) = some pr.2 := by
      rw [lookupVar, hfind]
    simp only [resolve_vars, substStr]
    rw [htok, hlk]
  · intro pr hfind1 hfind2
    have hlk : lookupVar vm em (String.mk name) = some pr.2 := by
      rw [lookupVar, hfind1, hfind2]
    simp only [resolve_vars, substStr]
    rw [htok, hlk]
  · intro hfind1 hfind2
    have hlk : lookupVar vm em (String.mk name) = none := by
      rw [lookupVar, hfind1, hfind2]
    simp only [resolve_vars, substStr]
    rw [htok, hlk]
  · intro v hv
    exact resolve_vars_noop_bounded vm em (sizeOf v) v le_rfl hv

theorem c6_witness :
    hasTokChars ['a'] = false ∧
    resolve_vars [("NAME", "x")] [("OTHER", "z")]
        (.vstr (String.mk (['a'] ++ '$' :: '{' :: (['N', 'A', 'M', 'E'] ++ '}' :: ['!'])))) =
      .vstr (String.mk (['a'] ++ (("x" : String).data ++
        substChars (lookupVar [("NAME", "x")] [("OTHER", "z")]) ['!']))) ∧
    resolve_vars [("NAME", "x")] [("OTHER", "z")] (.vbool true) = .vbool true := by
  have hp : hasTokChars ['a'] = false := by
    rw [hasTok_step 'a' [] (Or.inl (by decide)), hasTokChars]
  refine ⟨hp, ?_, ?_⟩
  · exact (c6_resolve_vars_spec [("NAME", "x")] [("OTHER", "z")] ['a'] ['N', 'A', 'M', 'E'] ['!']
      hp (by decide) (by decide)).1 ("NAME", "x") (by rfl)
  · exact (c6_resolve_vars_spec [("NAME", "x")] [("OTHER", "z")] ['a'] ['N', 'A', 'M', 'E'] ['!']
      hp (by decide) (by decide)).2.2.2 (.vbool true) rfl

end VuiCode
